import Mathlib

/-!
Verification of the screenshot-documentation pipeline (multi-agent
orchestrator, structured-output extractor, artifact preview server,
packaging utilities) against its natural-language specification.

The JavaScript source is shallowly embedded: pure decision logic becomes
Lean functions, the stateful preview-server manager becomes explicit state
passing, external-model calls become environment-provided stage outcomes,
and `JSON.parse` is modelled by an executable recursive-descent parser over
`List Char` (numbers keep their lexeme, sidestepping float semantics, which
no claim touches).
-/

namespace Orchestrator

/-- Per-agent token usage accumulator (`this.tokensUsed` in `base-agent.js`). -/
structure TokenUsage where
  input : Nat
  output : Nat
deriving Repr, DecidableEq

/-- The orchestrator's token totals (`calculateTotalTokens` result shape). -/
structure TokenTotals where
  input : Nat
  output : Nat
  total : Nat
deriving Repr, DecidableEq

/-- Token usage of the four specialist agents (`this.agents`). -/
structure AgentUsages where
  analyst : TokenUsage
  content : TokenUsage
  builder : TokenUsage
  validator : TokenUsage
deriving Repr, DecidableEq

/-- `calculateTotalTokens` in `orchestrator.js`: sums input and output token
counts over all four agents and records the grand total. -/
def calculateTotalTokens (usages : AgentUsages) : TokenTotals :=
  let inputSum := usages.analyst.input + usages.content.input +
    usages.builder.input + usages.validator.input
  let outputSum := usages.analyst.output + usages.content.output +
    usages.builder.output + usages.validator.output
  { input := inputSum, output := outputSum, total := inputSum + outputSum }

/-- Content of one package file: generated text or binary data (a Buffer in
the source, here abstracted to its byte length). -/
inductive FileContent where
  | text (s : String)
  | binary (size : Nat)
deriving Repr, DecidableEq

/-- A build package: mapping from relative file name to content, as produced
by the builder agent (a parsed JSON object in the source). -/
abbrev Package := List (String × FileContent)

/-- The validation report returned by the validator agent (a parsed JSON
object; `critical_issues` and `warnings` may be absent, hence `Option`). -/
structure ValidationReport where
  validation_passed : Bool
  critical_issues : Option (List String)
  warnings : Option (List String)
  overall_score : Nat
deriving Repr, DecidableEq

/-- Metadata block of a job result (`metadata` field in `orchestrator.js`
results; the failure branch omits `tokens_used` and `complexity`). -/
structure ResultMetadata where
  workflow_id : String
  processing_time : Nat
  tokens_used : Option TokenTotals
  complexity : Option String
deriving Repr, DecidableEq

/-- A job result as returned by `generateDocumentation` (and by
`handleValidationFailure`).  The source returns ad-hoc JS objects whose
fields differ per branch; absent fields are `none`. -/
structure JobResult where
  success : Bool
  package : Option Package
  validation : Option ValidationReport
  error : Option String
  requiresManualReview : Option Bool
  criticalIssues : Option (List String)
  warnings : Option (List String)
  metadata : Option ResultMetadata
deriving Repr, DecidableEq

/-- The advisory workflow plan (`planWorkflow`); only the fields the result
paths read are modelled. -/
structure WorkflowPlan where
  workflow_id : String
  complexity : String
deriving Repr, DecidableEq

/-- Outcomes of the four sequential external-model stages.  Each agent's
`execute` either yields its typed artifact or throws (here: `Except.error`
with the exception message).  The analysis and content artifacts are only
passed forward and logged, so their payloads are abstracted to `Unit`. -/
structure StageOutcomes where
  analysis : Except String Unit
  content : Except String Unit
  build : Except String Package
  validation : Except String ValidationReport

/-- `handleValidationFailure` in `orchestrator.js`. -/
def handleValidationFailure (htmlPackage : Package)
    (validation : ValidationReport) : JobResult :=
  let criticalIssues := validation.critical_issues.getD []
  if criticalIssues = [] then
    { success := true, package := some htmlPackage,
      validation := some validation, warnings := validation.warnings,
      error := none, requiresManualReview := none, criticalIssues := none,
      metadata := none }
  else
    { success := false, package := some htmlPackage,
      validation := some validation, requiresManualReview := some true,
      criticalIssues := some criticalIssues, error := none, warnings := none,
      metadata := none }

/-- Whether `validation.critical_issues && validation.critical_issues.length > 0`
is truthy (an absent list is falsy in JS). -/
def hasCriticalIssues (validation : ValidationReport) : Bool :=
  match validation.critical_issues with
  | some l => decide (l ≠ [])
  | none => false

/-- The `Failed` result built in the `catch` block of `generateDocumentation`:
only the failure reason and partial timing metadata are returned. -/
def failedResult (plan : WorkflowPlan) (message : String)
    (startTime now : Nat) : JobResult :=
  let meta : ResultMetadata :=
    { workflow_id := plan.workflow_id, processing_time := now - startTime,
      tokens_used := none, complexity := none }
  { success := false, error := some message, metadata := some meta,
    package := none, validation := none, requiresManualReview := none,
    criticalIssues := none, warnings := none }

/-- `generateDocumentation` in `orchestrator.js`, with the four stage calls
replaced by environment-provided outcomes.  Stages run strictly in order;
the first exception short-circuits to the `catch` block; after a structurally
successful validation the report's pass flag and critical-issue list choose
between the success result and `handleValidationFailure`. -/
def generateDocumentation (plan : WorkflowPlan) (stages : StageOutcomes)
    (usages : AgentUsages) (startTime now : Nat) : JobResult :=
  match stages.analysis with
  | .error e => failedResult plan e startTime now
  | .ok _ =>
    match stages.content with
    | .error e => failedResult plan e startTime now
    | .ok _ =>
      match stages.build with
      | .error e => failedResult plan e startTime now
      | .ok htmlPackage =>
        match stages.validation with
        | .error e => failedResult plan e startTime now
        | .ok validation =>
          if validation.validation_passed = false ∧
              hasCriticalIssues validation = true then
            handleValidationFailure htmlPackage validation
          else
            let meta : ResultMetadata :=
              { workflow_id := plan.workflow_id,
                processing_time := now - startTime,
                tokens_used := some (calculateTotalTokens usages),
                complexity := some plan.complexity }
            { success := true, package := some htmlPackage,
              validation := some validation, metadata := some meta,
              error := none, requiresManualReview := none,
              criticalIssues := none, warnings := none }

/-- The message of the first stage that failed, if any (stages are attempted
in source order: analysis, content, build, validation). -/
def firstFailure (stages : StageOutcomes) : Option String :=
  match stages.analysis with
  | .error e => some e
  | .ok _ =>
    match stages.content with
    | .error e => some e
    | .ok _ =>
      match stages.build with
      | .error e => some e
      | .ok _ =>
        match stages.validation with
        | .error e => some e
        | .ok _ => none

end Orchestrator

namespace Orchestrator

/-- Fixture: a workflow plan. -/
def planA : WorkflowPlan := { workflow_id := "wf-001", complexity := "medium" }

/-- Fixture: nonzero token usage for all four agents. -/
def usagesA : AgentUsages :=
  { analyst := { input := 100, output := 50 },
    content := { input := 200, output := 80 },
    builder := { input := 300, output := 120 },
    validator := { input := 40, output := 10 } }

/-- Fixture: a complete build package. -/
def pkgA : Package :=
  [("guide.html", .text "<html></html>"), ("README.md", .text "readme"),
   ("screenshot.png", .binary 1024)]

/-- Fixture: a report whose pass flag is `true` yet whose critical-issue list
is non-empty. -/
def reportPassCritical : ValidationReport :=
  { validation_passed := true,
    critical_issues := some ["Navigation menu is broken"],
    warnings := some ["minor spacing issue"], overall_score := 80 }

/-- Fixture: a failing report with one critical issue. -/
def reportFailCritical : ValidationReport :=
  { validation_passed := false, critical_issues := some ["broken"],
    warnings := none, overall_score := 40 }

/-- Fixture: a failing report with an empty critical-issue list and
warnings. -/
def reportFailNoCritical : ValidationReport :=
  { validation_passed := false, critical_issues := some [],
    warnings := some ["tooltip text is short"], overall_score := 70 }

/-- Fixture: a passing report. -/
def reportPass : ValidationReport :=
  { validation_passed := true, critical_issues := some [],
    warnings := some [], overall_score := 95 }

end Orchestrator

namespace Orchestrator

/-- C1 amended claim: for every validation report whose pass flag is `false`
and whose critical-issues list is non-empty, `generateDocumentation` returns
the NeedsReview result: success is false, the already-built package and the
report are still present, the result is marked as requiring manual review,
and the critical-issue list is carried verbatim.  The right-hand side
mentions no later computation, so no stage is re-run. -/
theorem c1_critical_issues_needs_review (plan : WorkflowPlan)
    (stages : StageOutcomes) (usages : AgentUsages) (t0 t1 : Nat)
    (pkg : Package) (report : ValidationReport) (issues : List String)
    (ha : stages.analysis = .ok ()) (hc : stages.content = .ok ())
    (hb : stages.build = .ok pkg) (hv : stages.validation = .ok report)
    (hpass : report.validation_passed = false)
    (hcrit : report.critical_issues = some issues) (hne : issues ≠ []) :
    generateDocumentation plan stages usages t0 t1 =
      { success := false, package := some pkg, validation := some report,
        requiresManualReview := some true, criticalIssues := some issues,
        error := none, warnings := none, metadata := none } := by
  simp only [generateDocumentation, ha, hc, hb, hv]
  rw [if_pos ⟨hpass, by simp [hasCriticalIssues, hcrit, hne]⟩]
  simp [handleValidationFailure, hcrit, hne]

/-- Witness for `c1_critical_issues_needs_review` at a concrete run. -/
theorem c1_critical_issues_needs_review_witness :
    generateDocumentation planA
      ⟨.ok (), .ok (), .ok pkgA, .ok reportFailCritical⟩ usagesA 0 5 =
      { success := false, package := some pkgA,
        validation := some reportFailCritical,
        requiresManualReview := some true, criticalIssues := some ["broken"],
        error := none, warnings := none, metadata := none } :=
  c1_critical_issues_needs_review planA _ usagesA 0 5 pkgA
    reportFailCritical ["broken"] rfl rfl rfl rfl rfl rfl (by decide)

/-- C1 counterexample: a validation report with pass flag `true` and a
non-empty critical-issues list does NOT yield a NeedsReview result — the
orchestrator only inspects the critical issues when the pass flag is false,
so this run completes with `success = true` and no manual-review marker,
contradicting "regardless of the value of its pass flag". -/
theorem c1_pass_flag_counterexample :
    hasCriticalIssues reportPassCritical = true ∧
    (generateDocumentation planA
      ⟨.ok (), .ok (), .ok pkgA, .ok reportPassCritical⟩
      usagesA 0 5).success = true ∧
    (generateDocumentation planA
      ⟨.ok (), .ok (), .ok pkgA, .ok reportPassCritical⟩
      usagesA 0 5).requiresManualReview = none := by
  refine ⟨rfl, rfl, rfl⟩

/-- C4: a validation report with an empty critical-issues list and pass flag
`false` still yields a Completed (`success = true`) deliverable result
containing the package, and the report (with its warnings) is returned in
the result's `validation` field. -/
theorem c4_empty_critical_completes (plan : WorkflowPlan)
    (stages : StageOutcomes) (usages : AgentUsages) (t0 t1 : Nat)
    (pkg : Package) (report : ValidationReport)
    (ha : stages.analysis = .ok ()) (hc : stages.content = .ok ())
    (hb : stages.build = .ok pkg) (hv : stages.validation = .ok report)
    (hpass : report.validation_passed = false)
    (hcrit : report.critical_issues = some []) :
    generateDocumentation plan stages usages t0 t1 =
      { success := true, package := some pkg, validation := some report,
        metadata := some ⟨plan.workflow_id, t1 - t0,
          some (calculateTotalTokens usages), some plan.complexity⟩,
        error := none, requiresManualReview := none, criticalIssues := none,
        warnings := none } ∧
    ((generateDocumentation plan stages usages t0 t1).validation.map
      ValidationReport.warnings) = some report.warnings := by
  have h : generateDocumentation plan stages usages t0 t1 =
      { success := true, package := some pkg, validation := some report,
        metadata := some ⟨plan.workflow_id, t1 - t0,
          some (calculateTotalTokens usages), some plan.complexity⟩,
        error := none, requiresManualReview := none, criticalIssues := none,
        warnings := none } := by
    simp only [generateDocumentation, ha, hc, hb, hv]
    rw [if_neg (by simp [hasCriticalIssues, hcrit])]
  exact ⟨h, by rw [h]; rfl⟩

/-- Witness for `c4_empty_critical_completes` at a concrete run. -/
theorem c4_empty_critical_completes_witness :
    generateDocumentation planA
      ⟨.ok (), .ok (), .ok pkgA, .ok reportFailNoCritical⟩ usagesA 0 9 =
      { success := true, package := some pkgA,
        validation := some reportFailNoCritical,
        metadata := some ⟨planA.workflow_id, 9 - 0,
          some (calculateTotalTokens usagesA), some planA.complexity⟩,
        error := none, requiresManualReview := none, criticalIssues := none,
        warnings := none } ∧
    ((generateDocumentation planA
      ⟨.ok (), .ok (), .ok pkgA, .ok reportFailNoCritical⟩
      usagesA 0 9).validation.map ValidationReport.warnings) =
      some reportFailNoCritical.warnings :=
  c4_empty_critical_completes planA _ usagesA 0 9 pkgA reportFailNoCritical
    rfl rfl rfl rfl rfl rfl

/-- Helper: a first stage failure short-circuits `generateDocumentation` to
the Failed result shape. -/
theorem generateDocumentation_of_firstFailure (plan : WorkflowPlan)
    (stages : StageOutcomes) (usages : AgentUsages) (t0 t1 : Nat)
    (e : String) (h : firstFailure stages = some e) :
    generateDocumentation plan stages usages t0 t1 =
      { success := false, error := some e,
        metadata := some ⟨plan.workflow_id, t1 - t0, none, none⟩,
        package := none, validation := none, requiresManualReview := none,
        criticalIssues := none, warnings := none } := by
  obtain ⟨a, c, b, v⟩ := stages
  cases a with
  | error ea =>
    simp only [firstFailure, Option.some.injEq] at h
    subst h
    rfl
  | ok ua =>
    cases c with
    | error ec =>
      simp only [firstFailure, Option.some.injEq] at h
      subst h
      rfl
    | ok uc =>
      cases b with
      | error eb =>
        simp only [firstFailure, Option.some.injEq] at h
        subst h
        rfl
      | ok pb =>
        cases v with
        | error ev =>
          simp only [firstFailure, Option.some.injEq] at h
          subst h
          rfl
        | ok rv =>
          simp [firstFailure] at h

/-- C5: whenever one of the four sequential stages fails, the orchestrator
returns a Failed result carrying the failure reason string and partial
timing metadata (workflow id and elapsed time only).  The right-hand side
is a typed result — the exception message is surfaced as a field, never
re-thrown — and does not depend on any later stage's outcome, so no later
stage executes. -/
theorem c5_stage_failure_short_circuits (plan : WorkflowPlan)
    (stages : StageOutcomes) (usages : AgentUsages) (t0 t1 : Nat)
    (e : String) (h : firstFailure stages = some e) :
    generateDocumentation plan stages usages t0 t1 =
      { success := false, error := some e,
        metadata := some ⟨plan.workflow_id, t1 - t0, none, none⟩,
        package := none, validation := none, requiresManualReview := none,
        criticalIssues := none, warnings := none } :=
  generateDocumentation_of_firstFailure plan stages usages t0 t1 e h

end Orchestrator

namespace Orchestrator

/-- Witness for `c5_stage_failure_short_circuits` at a concrete run in which
the build stage throws: the result is Failed with that reason, and the
validator's outcome is irrelevant. -/
theorem c5_stage_failure_short_circuits_witness :
    generateDocumentation planA
      ⟨.ok (), .ok (), .error "HTML build crashed", .ok reportPass⟩
      usagesA 3 10 =
      { success := false, error := some "HTML build crashed",
        metadata := some ⟨planA.workflow_id, 10 - 3, none, none⟩,
        package := none, validation := none, requiresManualReview := none,
        criticalIssues := none, warnings := none } :=
  c5_stage_failure_short_circuits planA _ usagesA 3 10 "HTML build crashed"
    rfl

/-- C8 counterexample: on a Failed outcome the resource-usage ledger is NOT
finalized — the result's metadata carries only the workflow id and elapsed
time, with `tokens_used` absent — even though the agents report non-zero
usage.  This contradicts "on every terminal transition ... both appear in
the returned result's metadata". -/
theorem c8_failed_run_counterexample :
    (generateDocumentation planA
      ⟨.error "API rate limit", .ok (), .ok pkgA, .ok reportPass⟩
      usagesA 0 7).success = false ∧
    (generateDocumentation planA
      ⟨.error "API rate limit", .ok (), .ok pkgA, .ok reportPass⟩
      usagesA 0 7).metadata = some ⟨"wf-001", 7, none, none⟩ ∧
    calculateTotalTokens usagesA ≠ ⟨0, 0, 0⟩ :=
  ⟨rfl, rfl, by decide⟩

/-- C8 amended claim: on a Completed outcome the orchestrator finalizes the
resource-usage ledger (input and output units summed over all four agents)
and computes the elapsed wall-clock time, and both appear in the result's
metadata; on a Failed outcome only the elapsed time (with the workflow id)
appears — the ledger is not finalized there. -/
theorem c8_terminal_metadata (plan : WorkflowPlan) (stages : StageOutcomes)
    (usages : AgentUsages) (t0 t1 : Nat) :
    (∀ pkg report, stages.analysis = .ok () → stages.content = .ok () →
      stages.build = .ok pkg → stages.validation = .ok report →
      (report.validation_passed = true ∨ hasCriticalIssues report = false) →
      (generateDocumentation plan stages usages t0 t1).metadata =
        some ⟨plan.workflow_id, t1 - t0,
          some ⟨usages.analyst.input + usages.content.input +
              usages.builder.input + usages.validator.input,
            usages.analyst.output + usages.content.output +
              usages.builder.output + usages.validator.output,
            (usages.analyst.input + usages.content.input +
              usages.builder.input + usages.validator.input) +
            (usages.analyst.output + usages.content.output +
              usages.builder.output + usages.validator.output)⟩,
          some plan.complexity⟩) ∧
    (∀ e, firstFailure stages = some e →
      (generateDocumentation plan stages usages t0 t1).success = false ∧
      (generateDocumentation plan stages usages t0 t1).metadata =
        some ⟨plan.workflow_id, t1 - t0, none, none⟩) := by
  constructor
  · intro pkg report ha hc hb hv hcond
    have hneg : ¬(report.validation_passed = false ∧
        hasCriticalIssues report = true) := by
      rcases hcond with h1 | h1 <;> simp [h1]
    simp only [generateDocumentation, ha, hc, hb, hv]
    rw [if_neg hneg]
    rfl
  · intro e h
    rw [generateDocumentation_of_firstFailure plan stages usages t0 t1 e h]
    exact ⟨rfl, rfl⟩

end Orchestrator

namespace Orchestrator

/-- Witness for `c8_terminal_metadata`: both parts applied at concrete runs
(a completed run summing the four agents' usage, and a failed run whose
metadata has no token totals). -/
theorem c8_terminal_metadata_witness :
    (generateDocumentation planA
      ⟨.ok (), .ok (), .ok pkgA, .ok reportPass⟩ usagesA 0 9).metadata =
      some ⟨planA.workflow_id, 9 - 0, some ⟨640, 260, 640 + 260⟩,
        some planA.complexity⟩ ∧
    ((generateDocumentation planA
      ⟨.error "boom", .ok (), .ok pkgA, .ok reportPass⟩
      usagesA 0 7).success = false ∧
    (generateDocumentation planA
      ⟨.error "boom", .ok (), .ok pkgA, .ok reportPass⟩
      usagesA 0 7).metadata = some ⟨planA.workflow_id, 7 - 0, none, none⟩) :=
  ⟨(c8_terminal_metadata planA _ usagesA 0 9).1 pkgA reportPass
      rfl rfl rfl rfl (Or.inl rfl),
   (c8_terminal_metadata planA _ usagesA 0 7).2 "boom" rfl⟩

end Orchestrator

namespace ArtifactServer

/-- Split a path into `/`-separated segments (the char-list counterpart of
`p.split('/')`). -/
def splitOnSlash : List Char → List (List Char)
  | [] => [[]]
  | c :: rest =>
    if c = '/' then [] :: splitOnSlash rest
    else
      match splitOnSlash rest with
      | [] => [[c]]
      | s :: ss => (c :: s) :: ss

/-- Segment resolution underlying Node's POSIX `path.normalize` on an
absolute path: drop empty and `.` segments, let `..` pop the previous
segment (and vanish at the root). -/
def resolveSegs (segs : List (List Char)) : List (List Char) :=
  segs.foldl
    (fun acc seg =>
      if seg = [] ∨ seg = ['.'] then acc
      else if seg = ['.', '.'] then acc.dropLast
      else acc ++ [seg]) []

/-- Rejoin segments with `/`. -/
def joinSegs : List (List Char) → List Char
  | [] => []
  | [s] => s
  | s :: rest => s ++ '/' :: joinSegs rest

/-- The resolved segments of a path string. -/
def resolveSegments (p : String) : List (List Char) :=
  resolveSegs (splitOnSlash p.toList)

/-- `path.normalize` for an absolute POSIX path (no trailing slash). -/
def normalizePath (p : String) : String :=
  String.mk ('/' :: joinSegs (resolveSegments p))

/-- `path.join(a, b)` for an absolute `a`: concatenate with a separator and
normalize. -/
def joinPath (a b : String) : String :=
  normalizePath (String.mk (a.toList ++ '/' :: b.toList))

/-- `normalizedPath.startsWith(tempDir)` — JS string-prefix test. -/
def startsWith (s pre : String) : Bool :=
  List.isPrefixOf pre.toList s.toList

/-- Whether a path lies inside directory `dir` in the segment-wise sense —
the actual containment property the spec's security invariant is about, as
opposed to the plain string-prefix test the code performs. -/
def insideDir (dir p : String) : Bool :=
  List.isPrefixOf (resolveSegments dir) (resolveSegments p)

/-- What the preview-server request handler does with a request before any
response is produced: reject with 403 Forbidden, or go on to read a file. -/
inductive RequestOutcome where
  | forbidden
  | readFile (path : String)
deriving Repr, DecidableEq

/-- The request handler installed by `startArtifactServer` in `server.js`:
default the root path to `guide.html`, join with the job-scoped extraction
directory, normalize, and serve unless the normalized path fails a string
`startsWith(tempDir)` test. -/
def handleRequest (tempDir url : String) : RequestOutcome :=
  let filePath := joinPath tempDir (if url = "/" then "guide.html" else url)
  let normalizedPath := normalizePath filePath
  if startsWith normalizedPath tempDir = false then .forbidden
  else .readFile filePath

/-- C2: the handler rejects `../../etc/passwd` with 403 as the spec says,
but its `startsWith` test is a plain string-prefix check, so a request
resolving to a sibling directory whose name extends the job directory's
name (here `temp/123evil` next to `temp/123`) escapes the job-scoped
directory yet is NOT rejected: the handler proceeds to read a file outside
the extraction root, contradicting the unconditional security invariant. -/
theorem c2_path_traversal_prefix_bug :
    handleRequest "/app/temp/123" "/../../etc/passwd" = .forbidden ∧
    handleRequest "/app/temp/123" "/../123evil/secret.txt" =
      .readFile "/app/temp/123evil/secret.txt" ∧
    insideDir "/app/temp/123" "/app/temp/123evil/secret.txt" = false := by
  refine ⟨rfl, ?_, rfl⟩
  rfl

end ArtifactServer

namespace ArtifactServer

/-- An active preview-server entry (`activeServers` map value; the live
`server` handle and URL are irrelevant to the claims). -/
structure ServerEntry where
  port : Nat
  tempDir : String
deriving Repr, DecidableEq

/-- Process-wide manager state: the monotonic port counter (`let nextPort =
9000`) and the `activeServers` map, keyed by entry id. -/
structure ManagerState where
  nextPort : Nat
  activeServers : List (String × ServerEntry)
deriving Repr, DecidableEq

/-- State at process start. -/
def initialState : ManagerState := { nextPort := 9000, activeServers := [] }

/-- `activeServers.get(entryId)`. -/
def lookupEntry (m : ManagerState) (entryId : String) : Option ServerEntry :=
  (m.activeServers.find? (fun pr => pr.1 = entryId)).map Prod.snd

/-- `startArtifactServer` in `server.js`: return the existing entry
unchanged if one is registered for this id; otherwise extract the archive,
take `nextPort++`, record and return the new entry. -/
def startArtifactServer (m : ManagerState) (entryId : String) :
    ServerEntry × ManagerState :=
  match lookupEntry m entryId with
  | some info => (info, m)
  | none =>
    let port := m.nextPort
    let info : ServerEntry :=
      { port := port, tempDir := "temp/" ++ entryId }
    (info, { nextPort := m.nextPort + 1,
             activeServers := m.activeServers ++ [(entryId, info)] })

/-- `stopArtifactServer` in `server.js`: close and remove the entry, or
report `false` ("not found") when no entry exists.  The port counter is
untouched. -/
def stopArtifactServer (m : ManagerState) (entryId : String) :
    Bool × ManagerState :=
  match lookupEntry m entryId with
  | none => (false, m)
  | some _ =>
    (true, { m with
      activeServers := m.activeServers.filter (fun pr => pr.1 ≠ entryId) })

/-- One manager operation issued by the HTTP routes. -/
inductive ManagerOp where
  | start (entryId : String)
  | stop (entryId : String)
deriving Repr, DecidableEq

/-- Apply one operation to the state. -/
def applyOp (m : ManagerState) (op : ManagerOp) : ManagerState :=
  match op with
  | .start id => (startArtifactServer m id).2
  | .stop id => (stopArtifactServer m id).2

/-- Run a sequence of operations from process start. -/
def runOps (ops : List ManagerOp) : ManagerState :=
  ops.foldl applyOp initialState

/-- The ports handed out to newly created entries along a run, in order. -/
def allocatedPortsFrom (m : ManagerState) : List ManagerOp → List Nat
  | [] => []
  | op :: rest =>
    match op with
    | .start id =>
      (if (lookupEntry m id).isNone then [m.nextPort] else []) ++
        allocatedPortsFrom (applyOp m (.start id)) rest
    | .stop id => allocatedPortsFrom (applyOp m (.stop id)) rest

/-- The ports handed out along a run from process start. -/
def allocatedPorts (ops : List ManagerOp) : List Nat :=
  allocatedPortsFrom initialState ops

/-- The port counter never decreases. -/
theorem nextPort_mono (m : ManagerState) (op : ManagerOp) :
    m.nextPort ≤ (applyOp m op).nextPort := by
  cases op with
  | start id =>
    simp only [applyOp, startArtifactServer]
    cases lookupEntry m id <;> simp
  | stop id =>
    simp only [applyOp, stopArtifactServer]
    cases lookupEntry m id <;> simp

/-- Every port allocated from state `m` onward is at least `m.nextPort`. -/
theorem allocatedPortsFrom_lower (ops : List ManagerOp) :
    ∀ m, ∀ p ∈ allocatedPortsFrom m ops, m.nextPort ≤ p := by
  induction ops with
  | nil => intro m p hp; simp [allocatedPortsFrom] at hp
  | cons op rest ih =>
    intro m p hp
    cases op with
    | start id =>
      simp only [allocatedPortsFrom, List.mem_append] at hp
      rcases hp with hp | hp
      · rcases h : (lookupEntry m id).isNone with hh | hh <;>
          simp [h] at hp
        exact hp ▸ le_refl _
      · exact le_trans (nextPort_mono m (.start id)) (ih _ p hp)
    | stop id =>
      simp only [allocatedPortsFrom] at hp
      exact le_trans (nextPort_mono m (.stop id)) (ih _ p hp)

/-- The allocated-port list from any state is strictly increasing. -/
theorem allocatedPortsFrom_chain (ops : List ManagerOp) :
    ∀ m, List.Chain' (· < ·) (allocatedPortsFrom m ops) := by
  induction ops with
  | nil => intro m; simp [allocatedPortsFrom]
  | cons op rest ih =>
    intro m
    cases op with
    | start id =>
      cases hl : lookupEntry m id with
      | some e =>
        have h : (lookupEntry m id).isNone = false := by simp [hl]
        simp only [allocatedPortsFrom, h, Bool.false_eq_true, if_false,
          List.nil_append]
        exact ih (applyOp m (.start id))
      | none =>
        have h : (lookupEntry m id).isNone = true := by simp [hl]
        simp only [allocatedPortsFrom, h, if_true, List.singleton_append]
        refine List.chain'_cons'.mpr ⟨?_, ih (applyOp m (.start id))⟩
        intro q hq
        have h2 : (applyOp m (.start id)).nextPort ≤ q :=
          allocatedPortsFrom_lower rest (applyOp m (.start id)) q
            (List.mem_of_mem_head? hq)
        have h3 : m.nextPort < (applyOp m (.start id)).nextPort := by
          simp [applyOp, startArtifactServer, hl]
        exact lt_of_lt_of_le h3 h2
    | stop id =>
      simp only [allocatedPortsFrom]
      exact ih (applyOp m (.stop id))

end ArtifactServer

namespace ArtifactServer

/-- The ports of all currently active entries. -/
def entryPorts (m : ManagerState) : List Nat :=
  m.activeServers.map (fun pr => pr.2.port)

/-- Manager invariant: every active port is below the counter, and active
ports are pairwise distinct. -/
def PortsInv (m : ManagerState) : Prop :=
  (∀ pr ∈ m.activeServers, pr.2.port < m.nextPort) ∧ (entryPorts m).Nodup

theorem portsInv_initial : PortsInv initialState := by
  constructor
  · intro pr hpr; simp [initialState] at hpr
  · simp [entryPorts, initialState]

theorem portsInv_applyOp (m : ManagerState) (op : ManagerOp)
    (h : PortsInv m) : PortsInv (applyOp m op) := by
  obtain ⟨hbound, hnodup⟩ := h
  cases op with
  | start id =>
    cases hl : lookupEntry m id with
    | some e =>
      simp only [applyOp, startArtifactServer, hl]
      exact ⟨hbound, hnodup⟩
    | none =>
      simp only [applyOp, startArtifactServer, hl]
      constructor
      · intro pr hpr
        rcases List.mem_append.mp hpr with hm | hm
        · exact Nat.lt_succ_of_lt (hbound pr hm)
        · simp at hm
          subst hm
          exact Nat.lt_succ_self _
      · simp only [entryPorts, List.map_append, List.map_cons, List.map_nil]
        rw [List.nodup_append]
        refine ⟨hnodup, List.nodup_singleton _, ?_⟩
        intro q hq hq2
        simp at hq2
        subst hq2
        simp only [entryPorts, List.mem_map] at hq
        obtain ⟨pr, hpr, hpq⟩ := hq
        exact absurd hpq (Nat.ne_of_lt (hbound pr hpr))
  | stop id =>
    cases hl : lookupEntry m id with
    | none =>
      simp only [applyOp, stopArtifactServer, hl]
      exact ⟨hbound, hnodup⟩
    | some e =>
      simp only [applyOp, stopArtifactServer, hl]
      constructor
      · intro pr hpr
        exact hbound pr (List.mem_of_mem_filter hpr)
      · exact List.Nodup.sublist
          (List.Sublist.map _ (List.filter_sublist _)) hnodup

theorem portsInv_runOps (ops : List ManagerOp) : PortsInv (runOps ops) := by
  suffices h : ∀ m, PortsInv m → PortsInv (ops.foldl applyOp m) from
    h initialState portsInv_initial
  induction ops with
  | nil => intro m hm; exact hm
  | cons op rest ih =>
    intro m hm
    exact ih (applyOp m op) (portsInv_applyOp m op hm)

/-- C9: ports handed out to newly created preview-server entries form a
strictly increasing sequence of values ≥ 9000 (hence non-zero and pairwise
distinct, so a port is never reused within the process lifetime, even after
a stop), and two active entries for two different job identifiers always
hold distinct ports. -/
theorem c9_port_allocation (ops : List ManagerOp) :
    List.Chain' (· < ·) (allocatedPorts ops) ∧
    (∀ p ∈ allocatedPorts ops, 9000 ≤ p) ∧
    (allocatedPorts ops).Nodup ∧
    (∀ id1 id2 e1 e2, (id1, e1) ∈ (runOps ops).activeServers →
      (id2, e2) ∈ (runOps ops).activeServers → id1 ≠ id2 →
      e1.port ≠ e2.port) := by
  have hchain := allocatedPortsFrom_chain ops initialState
  refine ⟨hchain, ?_, ?_, ?_⟩
  · intro p hp
    exact allocatedPortsFrom_lower ops initialState p hp
  · have hpw := List.chain'_iff_pairwise.mp hchain
    exact hpw.imp (fun h => Nat.ne_of_lt h)
  · intro id1 id2 e1 e2 h1 h2 hne hport
    have hinv := portsInv_runOps ops
    have heq := List.inj_on_of_nodup_map hinv.2 h1 h2 hport
    exact hne (congrArg Prod.fst heq)

/-- Witness for `c9_port_allocation`: a run that starts servers for two
different ids and stops the first; ports 9000 and 9001 are allocated in
order and the two concurrent entries hold distinct ports. -/
theorem c9_port_allocation_witness :
    allocatedPorts [ManagerOp.start "123", ManagerOp.start "456",
      ManagerOp.stop "123"] = [9000, 9001] ∧
    (9000 : Nat) ≤ 9000 ∧
    (ServerEntry.mk 9000 "temp/123").port ≠
      (ServerEntry.mk 9001 "temp/456").port :=
  have h := c9_port_allocation [ManagerOp.start "123", ManagerOp.start "456"]
  ⟨by decide,
   (c9_port_allocation [ManagerOp.start "123", ManagerOp.start "456",
      ManagerOp.stop "123"]).2.1 9000 (by decide),
   h.2.2.2 "123" "456" (ServerEntry.mk 9000 "temp/123")
     (ServerEntry.mk 9001 "temp/456") (by decide) (by decide) (by decide)⟩

end ArtifactServer

namespace Packaging

open Orchestrator

/-- `requiredFiles` in `validatePackageContents` (`file-packager.js`). -/
def requiredFiles : List String := ["guide.html", "README.md", "screenshot.png"]

/-- JS truthiness of `files[name]`: false when the key is absent or the
content is the empty string (a Buffer object is always truthy). -/
def truthyEntry (files : Package) (name : String) : Bool :=
  match files.lookup name with
  | none => false
  | some (.text s) => decide (s ≠ "")
  | some (.binary _) => true

/-- `!content || (typeof content === 'string' && content.trim().length === 0)`
for a present entry. -/
def isEmptyContent : FileContent → Bool
  | .text s => decide (s.trim = "")
  | .binary _ => false

/-- Result shape of `validatePackageContents`. -/
structure PackageValidation where
  valid : Bool
  errors : List String
deriving Repr, DecidableEq

/-- `validatePackageContents` in `file-packager.js`: requires `guide.html`,
`README.md` and `screenshot.png` to be present, then rejects empty files. -/
def validatePackageContents (files : Package) : PackageValidation :=
  let missingFiles := requiredFiles.filter (fun f => truthyEntry files f = false)
  if missingFiles ≠ [] then
    { valid := false,
      errors := ["Missing required files: " ++
        String.intercalate ", " missingFiles] }
  else
    let emptyFiles := (files.filter (fun pr => isEmptyContent pr.2)).map Prod.fst
    if emptyFiles ≠ [] then
      { valid := false,
        errors := ["Empty files found: " ++ String.intercalate ", " emptyFiles] }
    else { valid := true, errors := [] }

/-- Result shape of `ScreenshotDocumenter.processScreenshot` (`main.js`). -/
structure ProcessOutcome where
  success : Bool
  deliveredFiles : Option Package
  validation : Option ValidationReport
  requiresManualReview : Option Bool
  error : Option String
deriving Repr, DecidableEq

/-- `createZipPackage` adds every string or Buffer entry of the mapping to
the archive (both `FileContent` variants qualify). -/
def createZipFiles (files : Package) : Package := files

/-- `processScreenshot` in `main.js` after `generateDocumentation` returns:
a failed generation is passed through; a successful one gets a
`FILE-STRUCTURE.txt` appended (its text, produced by
`createFileStructureDoc`, is irrelevant to the claims and passed in here)
and is zipped and delivered.  No call to `validatePackageContents` occurs
anywhere in the pipeline. -/
def processScreenshot (result : JobResult) (fileStructureDoc : String) :
    ProcessOutcome :=
  if result.success = false then
    { success := false, deliveredFiles := none,
      validation := result.validation,
      requiresManualReview := result.requiresManualReview,
      error := result.error }
  else
    let pkg := result.package.getD [] ++
      [("FILE-STRUCTURE.txt", FileContent.text fileStructureDoc)]
    { success := true, deliveredFiles := some (createZipFiles pkg),
      validation := result.validation, requiresManualReview := none,
      error := none }

/-- Fixture: a build package missing both `README.md` and `screenshot.png`. -/
def pkgMissingDocs : Package := [("guide.html", .text "<html>ok</html>")]

/-- C3: the pipeline delivers a success result whose package lacks
`README.md` and `screenshot.png`, with no packaging-validation failure of
any kind — even though the repository's own `validatePackageContents`
classifies exactly this package as invalid with a missing-files error.  The
function is defined but never called, so the required-contents invariant is
not enforced on delivered results. -/
theorem c3_package_validation_not_enforced :
    (processScreenshot (generateDocumentation planA
      ⟨.ok (), .ok (), .ok pkgMissingDocs, .ok reportPass⟩ usagesA 0 5)
      "files").success = true ∧
    ((processScreenshot (generateDocumentation planA
      ⟨.ok (), .ok (), .ok pkgMissingDocs, .ok reportPass⟩ usagesA 0 5)
      "files").deliveredFiles.map
        (fun fs => (fs.lookup "README.md", fs.lookup "screenshot.png"))) =
      some (none, none) ∧
    (processScreenshot (generateDocumentation planA
      ⟨.ok (), .ok (), .ok pkgMissingDocs, .ok reportPass⟩ usagesA 0 5)
      "files").error = none ∧
    validatePackageContents pkgMissingDocs =
      { valid := false,
        errors := ["Missing required files: README.md, screenshot.png"] } := by
  refine ⟨rfl, by decide, rfl, by decide⟩

end Packaging

namespace JsonModel

/-- Whitespace accepted by `JSON.parse` between tokens. -/
def isJsonWs (c : Char) : Bool :=
  c = ' ' ∨ c = '\t' ∨ c = '\n' ∨ c = '\r'

/-- ASCII whitespace matched by the `\s` class of the repair regexes (the
full JS class also has some Unicode spaces, which never occur here). -/
def isRegexWs (c : Char) : Bool :=
  c = ' ' ∨ c = '\t' ∨ c = '\n' ∨ c = '\r' ∨ c = '\x0b' ∨ c = '\x0c'

/-- Skip inter-token whitespace. -/
def skipWs (cs : List Char) : List Char := cs.dropWhile isJsonWs

/-- A JSON value as produced by `JSON.parse`.  A number keeps its source
lexeme (its float64 value is irrelevant to every claim); an object keeps
its fields in source order. -/
inductive Json where
  | null
  | bool (b : Bool)
  | num (lexeme : List Char)
  | str (s : List Char)
  | arr (elems : List Json)
  | obj (fields : List (List Char × Json))
deriving Inhabited

mutual

/-- Structural equality test for `Json`. -/
def beqJson : Json → Json → Bool
  | .null, .null => true
  | .bool a, .bool b => a = b
  | .num a, .num b => a = b
  | .str a, .str b => a = b
  | .arr xs, .arr ys => beqJsonList xs ys
  | .obj fs, .obj gs => beqJsonFields fs gs
  | _, _ => false

/-- Structural equality test for `Json` lists. -/
def beqJsonList : List Json → List Json → Bool
  | [], [] => true
  | x :: xs, y :: ys => beqJson x y && beqJsonList xs ys
  | _, _ => false

/-- Structural equality test for `Json` field lists. -/
def beqJsonFields : List (List Char × Json) → List (List Char × Json) → Bool
  | [], [] => true
  | (k, v) :: fs, (l, w) :: gs => k = l && (beqJson v w && beqJsonFields fs gs)
  | _, _ => false

end

mutual

theorem eq_of_beqJson : ∀ a b : Json, beqJson a b = true → a = b
  | .null, .null, _ => rfl
  | .bool a, .bool b, h => by
    simp only [beqJson, decide_eq_true_eq] at h
    rw [h]
  | .num a, .num b, h => by
    simp only [beqJson, decide_eq_true_eq] at h
    rw [h]
  | .str a, .str b, h => by
    simp only [beqJson, decide_eq_true_eq] at h
    rw [h]
  | .arr xs, .arr ys, h => by
    rw [eq_of_beqJsonList xs ys h]
  | .obj fs, .obj gs, h => by
    rw [eq_of_beqJsonFields fs gs h]

theorem eq_of_beqJsonList : ∀ xs ys : List Json,
    beqJsonList xs ys = true → xs = ys
  | [], [], _ => rfl
  | x :: xs, y :: ys, h => by
    simp only [beqJsonList, Bool.and_eq_true] at h
    rw [eq_of_beqJson x y h.1, eq_of_beqJsonList xs ys h.2]

theorem eq_of_beqJsonFields : ∀ fs gs : List (List Char × Json),
    beqJsonFields fs gs = true → fs = gs
  | [], [], _ => rfl
  | (k, v) :: fs, (l, w) :: gs, h => by
    simp only [beqJsonFields, Bool.and_eq_true, decide_eq_true_eq] at h
    rw [h.1, eq_of_beqJson v w h.2.1, eq_of_beqJsonFields fs gs h.2.2]

end

mutual

theorem beqJson_refl : ∀ a : Json, beqJson a a = true
  | .null => rfl
  | .bool a => by simp [beqJson]
  | .num a => by simp [beqJson]
  | .str a => by simp [beqJson]
  | .arr xs => beqJsonList_refl xs
  | .obj fs => beqJsonFields_refl fs

theorem beqJsonList_refl : ∀ xs : List Json, beqJsonList xs xs = true
  | [] => rfl
  | x :: xs => by
    simp only [beqJsonList, Bool.and_eq_true]
    exact ⟨beqJson_refl x, beqJsonList_refl xs⟩

theorem beqJsonFields_refl : ∀ fs : List (List Char × Json),
    beqJsonFields fs fs = true
  | [] => rfl
  | (k, v) :: fs => by
    simp [beqJsonFields, beqJson_refl v, beqJsonFields_refl fs]

end

instance : DecidableEq Json := fun a b =>
  decidable_of_iff (beqJson a b = true)
    ⟨eq_of_beqJson a b, fun h => h ▸ beqJson_refl a⟩

/-- Hex digit value. -/
def hexVal (c : Char) : Option Nat :=
  if '0' ≤ c ∧ c ≤ '9' then some (c.toNat - '0'.toNat)
  else if 'a' ≤ c ∧ c ≤ 'f' then some (c.toNat - 'a'.toNat + 10)
  else if 'A' ≤ c ∧ c ≤ 'F' then some (c.toNat - 'A'.toNat + 10)
  else none

/-- Decode one JSON string escape (after the backslash).  `\uXXXX` with a
surrogate code unit is unrepresentable as a scalar and decodes to the
default character, a corner no claim depends on. -/
def decodeEscape : List Char → Option (Char × List Char)
  | 'u' :: h1 :: h2 :: h3 :: h4 :: rest =>
    match hexVal h1, hexVal h2, hexVal h3, hexVal h4 with
    | some a, some b, some c, some d =>
      some (Char.ofNat (((a * 16 + b) * 16 + c) * 16 + d), rest)
    | _, _, _, _ => none
  | c :: rest =>
    if c = '"' then some ('"', rest)
    else if c = '\\' then some ('\\', rest)
    else if c = '/' then some ('/', rest)
    else if c = 'b' then some ('\x08', rest)
    else if c = 'f' then some ('\x0c', rest)
    else if c = 'n' then some ('\n', rest)
    else if c = 'r' then some ('\r', rest)
    else if c = 't' then some ('\t', rest)
    else none
  | [] => none

/-- Parse a JSON string body after the opening quote, decoding escapes,
up to and including the closing quote. -/
def parseStringBody (fuel : Nat) (cs : List Char) :
    Option (List Char × List Char) :=
  match fuel with
  | 0 => none
  | fuel + 1 =>
    match cs with
    | [] => none
    | c :: rest =>
      if c = '"' then some ([], rest)
      else if c = '\\' then
        match decodeEscape rest with
        | none => none
        | some (ch, rest2) =>
          match parseStringBody fuel rest2 with
          | none => none
          | some (s, r) => some (ch :: s, r)
      else if c.toNat < 32 then none
      else
        match parseStringBody fuel rest with
        | none => none
        | some (s, r) => some (c :: s, r)

/-- Greedy digit run. -/
def takeDigits (cs : List Char) : List Char × List Char :=
  (cs.takeWhile Char.isDigit, cs.dropWhile Char.isDigit)

/-- JSON integer part: `0`, or a nonzero digit followed by digits. -/
def parseIntPart : List Char → Option (List Char × List Char)
  | [] => none
  | c :: rest =>
    if c = '0' then some (['0'], rest)
    else if c.isDigit then
      match takeDigits (c :: rest) with
      | (ds, r) => some (ds, r)
    else none

/-- Optional JSON fraction part; a bare `.` is a parse error. -/
def parseFrac : List Char → Option (List Char × List Char)
  | [] => some ([], [])
  | c :: rest =>
    if c = '.' then
      match takeDigits rest with
      | ([], _) => none
      | (ds, r) => some ('.' :: ds, r)
    else some ([], c :: rest)

/-- Optional JSON exponent part; `e` without digits is a parse error. -/
def parseExp : List Char → Option (List Char × List Char)
  | [] => some ([], [])
  | c :: rest =>
    if c = 'e' ∨ c = 'E' then
      match rest with
      | [] => none
      | s :: rest2 =>
        if s = '+' ∨ s = '-' then
          match takeDigits rest2 with
          | ([], _) => none
          | (ds, r) => some (c :: s :: ds, r)
        else
          match takeDigits rest with
          | ([], _) => none
          | (ds, r) => some (c :: ds, r)
    else some ([], c :: rest)

/-- Lex one JSON number token, returning its lexeme. -/
def parseNumber (cs : List Char) : Option (List Char × List Char) :=
  match cs with
  | [] => none
  | c :: rest =>
    if c = '-' then
      match parseIntPart rest with
      | none => none
      | some (ip, r1) =>
        match parseFrac r1 with
        | none => none
        | some (fp, r2) =>
          match parseExp r2 with
          | none => none
          | some (ep, r3) => some ('-' :: (ip ++ fp ++ ep), r3)
    else
      match parseIntPart (c :: rest) with
      | none => none
      | some (ip, r1) =>
        match parseFrac r1 with
        | none => none
        | some (fp, r2) =>
          match parseExp r2 with
          | none => none
          | some (ep, r3) => some (ip ++ fp ++ ep, r3)

mutual

/-- Parse one JSON value (recursive descent, fuel-indexed). -/
def parseValue : Nat → List Char → Option (Json × List Char)
  | 0, _ => none
  | fuel + 1, cs =>
    match skipWs cs with
    | [] => none
    | c :: rest =>
      if c = '{' then parseMembers fuel rest
      else if c = '[' then parseElements fuel rest
      else if c = '"' then
        match parseStringBody (rest.length + 1) rest with
        | none => none
        | some (s, r) => some (.str s, r)
      else if c = 't' then
        match rest with
        | 'r' :: 'u' :: 'e' :: r => some (.bool true, r)
        | _ => none
      else if c = 'f' then
        match rest with
        | 'a' :: 'l' :: 's' :: 'e' :: r => some (.bool false, r)
        | _ => none
      else if c = 'n' then
        match rest with
        | 'u' :: 'l' :: 'l' :: r => some (.null, r)
        | _ => none
      else
        match parseNumber (c :: rest) with
        | none => none
        | some (lex, r) => some (.num lex, r)

/-- Parse array contents after the opening bracket. -/
def parseElements : Nat → List Char → Option (Json × List Char)
  | 0, _ => none
  | fuel + 1, cs =>
    match skipWs cs with
    | [] => parseElementsLoop fuel cs []
    | d :: rest =>
      if d = ']' then some (.arr [], rest)
      else parseElementsLoop fuel cs []

/-- Array element loop: value, then `,` to continue or `]` to stop. -/
def parseElementsLoop : Nat → List Char → List Json →
    Option (Json × List Char)
  | 0, _, _ => none
  | fuel + 1, cs, acc =>
    match parseValue fuel cs with
    | none => none
    | some (v, r) =>
      match skipWs r with
      | [] => none
      | d :: r2 =>
        if d = ',' then parseElementsLoop fuel r2 (acc ++ [v])
        else if d = ']' then some (.arr (acc ++ [v]), r2)
        else none

/-- Parse object contents after the opening brace. -/
def parseMembers : Nat → List Char → Option (Json × List Char)
  | 0, _ => none
  | fuel + 1, cs =>
    match skipWs cs with
    | [] => parseMembersLoop fuel cs []
    | d :: rest =>
      if d = '}' then some (.obj [], rest)
      else parseMembersLoop fuel cs []

/-- Object member loop: `"key" : value`, then `,` to continue or `}`. -/
def parseMembersLoop : Nat → List Char → List (List Char × Json) →
    Option (Json × List Char)
  | 0, _, _ => none
  | fuel + 1, cs, acc =>
    match skipWs cs with
    | [] => none
    | q :: rest =>
      if q = '"' then
        match parseStringBody (rest.length + 1) rest with
        | none => none
        | some (key, r) =>
          match skipWs r with
          | [] => none
          | col :: r2 =>
            if col = ':' then
              match parseValue fuel r2 with
              | none => none
              | some (v, r3) =>
                match skipWs r3 with
                | [] => none
                | d :: r4 =>
                  if d = ',' then parseMembersLoop fuel r4 (acc ++ [(key, v)])
                  else if d = '}' then some (.obj (acc ++ [(key, v)]), r4)
                  else none
            else none
      else none

end

/-- `JSON.parse`: parse one value and require only whitespace after it.
The fuel `3 * length + 3` dominates the call depth: at most three nested
parser frames begin per consumed character. -/
def JSONparse (cs : List Char) : Option Json :=
  match parseValue (3 * cs.length + 3) cs with
  | none => none
  | some (v, rest) => if skipWs rest = [] then some v else none

end JsonModel

namespace JsonModel

/-- Whether a closing brace/bracket follows across whitespace — the
lookahead of the `,(\s*[}\]])` repair pattern. -/
def closerAfterWs (cs : List Char) : Bool :=
  match cs.dropWhile isRegexWs with
  | d :: _ => d = '}' ∨ d = ']'
  | [] => false

/-- `jsonText.replace(/,(\s*[}\]])/g, '$1')`: drop every comma that is
followed (across whitespace) by a closing brace or bracket.  JS `replace`
resumes scanning after the matched closer; rescanning the unmodified
whitespace-and-closer text instead is equivalent, since no new match can
start inside it, and keeps the recursion structural. -/
def stripTrailingCommas : List Char → List Char
  | [] => []
  | c :: rest =>
    if c = ',' ∧ closerAfterWs rest then stripTrailingCommas rest
    else c :: stripTrailingCommas rest

/-- Whether an opening brace follows across whitespace — the lookahead of
the `\}(\s*)\{` repair pattern. -/
def braceAfterWs (cs : List Char) : Bool :=
  match cs.dropWhile isRegexWs with
  | d :: _ => d = '{'
  | [] => false

/-- Scanner for `jsonText.replace(/\}(\s*)\{/g, '},\n{')`.  The flag
records that a match was found and the interleaving whitespace (already
replaced by `,\n`) together with the matched `{` is still to be consumed;
no new match can start before that `{`, so the scan is structural. -/
def insertCommasGo : Bool → List Char → List Char
  | _, [] => []
  | true, c :: rest =>
    if isRegexWs c then insertCommasGo true rest
    else '{' :: insertCommasGo false rest
  | false, c :: rest =>
    if c = '}' ∧ braceAfterWs rest then
      '}' :: ',' :: '
' :: insertCommasGo true rest
    else c :: insertCommasGo false rest

/-- `jsonText.replace(/\}(\s*)\{/g, '},\n{')`: insert a comma and a
newline (discarding the matched whitespace) between a closing brace and a
following opening brace. -/
def insertMissingCommas (cs : List Char) : List Char :=
  insertCommasGo false cs

/-- Lookahead of the `\}\s*\n\s*\{` pattern: an opening brace follows
across whitespace that contains at least one newline. -/
def braceAfterWsNl (cs : List Char) : Bool :=
  braceAfterWs cs ∧ (cs.takeWhile isRegexWs).contains '
'

/-- Scanner for `jsonText.replace(/\}\s*\n\s*\{/g, '},\n{')`, as
`insertCommasGo` but requiring a newline inside the matched whitespace. -/
def insertCommasNlGo : Bool → List Char → List Char
  | _, [] => []
  | true, c :: rest =>
    if isRegexWs c then insertCommasNlGo true rest
    else '{' :: insertCommasNlGo false rest
  | false, c :: rest =>
    if c = '}' ∧ braceAfterWsNl rest then
      '}' :: ',' :: '
' :: insertCommasNlGo true rest
    else c :: insertCommasNlGo false rest

/-- `jsonText.replace(/\}\s*\n\s*\{/g, '},\n{')`. -/
def insertMissingCommasNewline (cs : List Char) : List Char :=
  insertCommasNlGo false cs

/-- The three separator repairs of `extractJSON`, in source order. -/
def repairSeparators (cs : List Char) : List Char :=
  insertMissingCommasNewline (insertMissingCommas (stripTrailingCommas cs))

/-- Longest prefix ending with `}`, if any. -/
def upToLastBrace (cs : List Char) : Option (List Char) :=
  let r := cs.reverse.dropWhile (fun c => c ≠ '}')
  if r = [] then none else some r.reverse

/-- `text.match(/\{[\s\S]*\}/)`: the span from the first `{` through the
last `}` (the dotall-greedy match), if both exist in that order. -/
def jsonSpan (text : List Char) : Option (List Char) :=
  match text.dropWhile (fun c => c ≠ '{') with
  | [] => none
  | c :: rest =>
    match upToLastBrace rest with
    | none => none
    | some mid => some (c :: mid)

/-- The closing delimiters appended by the truncation recovery, each on its
own line: `missing` closing characters, each preceded by a newline. -/
def decorateClosers (missing : List Char) : List Char :=
  (missing.map (fun c => ['\n', c])).flatten

/-- Brace/bracket counting and closure appending of `extractJSON`: when the
counts are unequal, append the missing closing brackets and then the
missing closing braces (a `for` loop with a negative bound appends
nothing). -/
def balanceClosers (cs : List Char) : List Char :=
  let openBraces := cs.count '{'
  let closeBraces := cs.count '}'
  let openBrackets := cs.count '['
  let closeBrackets := cs.count ']'
  if openBraces ≠ closeBraces ∨ openBrackets ≠ closeBrackets then
    cs ++ decorateClosers (List.replicate (openBrackets - closeBrackets) ']' ++
      List.replicate (openBraces - closeBraces) '}')
  else cs

/-- Failure modes of `extractJSON`: no brace-delimited span at all, or a
parse failure surviving all repairs (carrying the repaired text that is
written to the debug file). -/
inductive ExtractError where
  | noJson
  | parseFailed (debugText : List Char)
deriving Repr, DecidableEq

/-- `BaseAgent.extractJSON` (recovery version, `base-agent.js`): locate the
first-`{`-to-last-`}` span, parse it verbatim, and on failure apply the
separator repairs and the brace/bracket balancing before one re-parse. -/
def extractJSON (text : List Char) : Except ExtractError Json :=
  match jsonSpan text with
  | none => .error .noJson
  | some jsonText =>
    match JSONparse jsonText with
    | some v => .ok v
    | none =>
      let balanced := balanceClosers (repairSeparators jsonText)
      match JSONparse balanced with
      | some v => .ok v
      | none => .error (.parseFailed balanced)

end JsonModel

namespace History

open JsonModel

/-- Observable state of the history file for one read attempt. -/
inductive FileState where
  | absent
  | unreadable
  | content (data : String)

/-- `loadHistory` in `server.js`: read and `JSON.parse` the history file;
any exception (missing file, unreadable file, invalid JSON) is caught and
the empty array is returned instead. -/
def loadHistory : FileState → Json
  | .absent => .arr []
  | .unreadable => .arr []
  | .content data =>
    match JSONparse data.toList with
    | some v => v
    | none => .arr []

/-- Response of `GET /api/history`. -/
structure HistoryResponse where
  status : Nat
  success : Bool
  history : Json

/-- The `GET /api/history` route: `loadHistory` is total, so the route
always answers 200 with `success: true`. -/
def getHistoryRoute (fs : FileState) : HistoryResponse :=
  { status := 200, success := true, history := loadHistory fs }

/-- C10: for every state of the history file — absent, unreadable, or
containing invalid JSON — `loadHistory` returns the empty list instead of
failing, and the history-listing route always succeeds (status 200,
`success: true`), silently presenting corrupt or missing history as empty. -/
theorem c10_load_history_swallows_errors (fs : FileState) :
    (getHistoryRoute fs).success = true ∧ (getHistoryRoute fs).status = 200 ∧
    ((fs = .absent ∨ fs = .unreadable ∨
      (∃ s, fs = .content s ∧ JSONparse s.toList = none)) →
      (getHistoryRoute fs).history = .arr []) := by
  refine ⟨rfl, rfl, ?_⟩
  intro h
  rcases h with h | h | ⟨s, h, hparse⟩
  · subst h; rfl
  · subst h; rfl
  · subst h
    simp only [getHistoryRoute, loadHistory]
    rw [hparse]

/-- Witness for `c10_load_history_swallows_errors`: a history file holding
text that is not valid JSON is presented as the empty history. -/
theorem c10_load_history_swallows_errors_witness :
    (getHistoryRoute (.content "corrupt]")).success = true ∧
    (getHistoryRoute (.content "corrupt]")).status = 200 ∧
    (getHistoryRoute (.content "corrupt]")).history = .arr [] :=
  have h := c10_load_history_swallows_errors (.content "corrupt]")
  ⟨h.1, h.2.1, h.2.2 (Or.inr (Or.inr ⟨"corrupt]", rfl, rfl⟩))⟩

end History

namespace JsonModel

/-- C7 counterexample input: valid JSON except for exactly one extra
trailing comma (in `[1,]`), but with a `,}` sequence inside a string
literal. -/
def cexSeparatorInput : List Char := "\x7b\"a\": \"x,\x7d\", \"b\": [1,]\x7d".toList

/-- The separator-free equivalent of `cexSeparatorInput`. -/
def cexSeparatorFree : List Char := "\x7b\"a\": \"x,\x7d\", \"b\": [1]\x7d".toList

/-- Value of the separator-free equivalent. -/
def cexSeparatorValue : Json :=
  .obj [(['a'], .str ['x', ',', '}']), (['b'], .arr [.num ['1']])]

/-- What the extractor actually recovers: the comma inside the string
literal has been eaten by the repair regex. -/
def cexSeparatorMangled : Json :=
  .obj [(['a'], .str ['x', '}']), (['b'], .arr [.num ['1']])]

/-- C7 counterexample: `cexSeparatorInput` is the separator-free text with
one comma inserted before a closing bracket, it does not parse as-is, the
separator-free equivalent parses to `cexSeparatorValue` — yet the
extractor's recovery returns a different value, because the global repair
regex also deletes the comma inside the string literal `"x,}"`. -/
theorem c7_counterexample_string_literal :
    cexSeparatorInput =
      "\x7b\"a\": \"x,\x7d\", \"b\": [1".toList ++ ',' :: "]\x7d".toList ∧
    "\x7b\"a\": \"x,\x7d\", \"b\": [1".toList ++ "]\x7d".toList = cexSeparatorFree ∧
    JSONparse cexSeparatorInput = none ∧
    JSONparse cexSeparatorFree = some cexSeparatorValue ∧
    extractJSON cexSeparatorInput = .ok cexSeparatorMangled ∧
    cexSeparatorMangled ≠ cexSeparatorValue :=
  ⟨rfl, rfl, rfl, rfl, rfl, by decide⟩

/-- C6 counterexample blob: a valid JSON object whose pending closers at
the truncation point interleave braces and brackets. -/
def cexTruncBlob : List Char := "\x7b\"a\":[\x7b\"b\":\x7b\"c\":1\x7d\x7d]\x7d".toList

/-- `cexTruncBlob` truncated by removing the suffix `}]}` — closing
delimiters only. -/
def cexTruncated : List Char := "\x7b\"a\":[\x7b\"b\":\x7b\"c\":1\x7d".toList

/-- C6 counterexample: the blob is valid JSON and the removed suffix `}]}`
consists of closing delimiters only, yet the extractor fails: the
balancing step appends all missing brackets before all missing braces
(`...\n]\n}\n}`), which cannot close the interleaved nesting `{[{`. -/
theorem c6_counterexample_interleaved_closers :
    JSONparse cexTruncBlob =
      some (.obj [(['a'],
        .arr [.obj [(['b'], .obj [(['c'], .num ['1'])])]])]) ∧
    cexTruncBlob = cexTruncated ++ "\x7d]\x7d".toList ∧
    ("\x7d]\x7d".toList.all (fun c => c = '}' ∨ c = ']')) = true ∧
    extractJSON cexTruncated =
      .error (.parseFailed ("\x7b\"a\":[\x7b\"b\":\x7b\"c\":1\x7d\n]\n\x7d\n\x7d".toList)) :=
  ⟨rfl, rfl, rfl, rfl⟩

end JsonModel

namespace JsonModel

theorem stripTrailingCommas_length_le (cs : List Char) :
    (stripTrailingCommas cs).length ≤ cs.length := by
  induction cs with
  | nil => simp [stripTrailingCommas]
  | cons a rest ih =>
    simp only [stripTrailingCommas]
    split
    · exact le_trans ih (Nat.le_succ _)
    · simpa using ih

/-- Inserting a comma right before the closer cannot create a
`closerAfterWs` lookahead that was not already there. -/
theorem closerAfterWs_of_insert (X Y : List Char) (c : Char)
    (hc : c = '}' ∨ c = ']')
    (h : closerAfterWs (X ++ ',' :: c :: Y) = true) :
    closerAfterWs (X ++ c :: Y) = true := by
  induction X with
  | nil =>
    have hw : isRegexWs c = false := by
      rcases hc with h1 | h1 <;> subst h1 <;> rfl
    simp only [List.nil_append, closerAfterWs, List.dropWhile_cons, hw]
    simpa using hc
  | cons a X ih =>
    by_cases hw : isRegexWs a = true
    · simp only [List.cons_append, closerAfterWs, List.dropWhile_cons, hw,
        if_true] at h ⊢
      exact ih h
    · have hw2 : isRegexWs a = false := by simpa using hw
      simp only [List.cons_append, closerAfterWs, List.dropWhile_cons, hw2,
        Bool.false_eq_true, if_false] at h ⊢
      exact h

/-- One-step unfolding of `stripTrailingCommas`. -/
theorem stripTrailingCommas_cons (a : Char) (rest : List Char) :
    stripTrailingCommas (a :: rest) =
      if a = ',' ∧ closerAfterWs rest = true then stripTrailingCommas rest
      else a :: stripTrailingCommas rest := rfl

/-- Key repair lemma: when the separator-removal pass leaves the
separator-free text unchanged, running it on the text with one extra comma
inserted right before a closing delimiter removes exactly that comma. -/
theorem stripTrailingCommas_insert (X Y : List Char) (c : Char)
    (hc : c = '}' ∨ c = ']')
    (hid : stripTrailingCommas (X ++ c :: Y) = X ++ c :: Y) :
    stripTrailingCommas (X ++ ',' :: c :: Y) = X ++ c :: Y := by
  induction X with
  | nil =>
    have hw : isRegexWs c = false := by
      rcases hc with h1 | h1 <;> subst h1 <;> rfl
    have hcl : closerAfterWs (c :: Y) = true := by
      simp only [closerAfterWs, List.dropWhile_cons, hw, Bool.false_eq_true,
        if_false]
      simpa using hc
    simp only [List.nil_append] at hid ⊢
    rw [stripTrailingCommas_cons, if_pos ⟨rfl, hcl⟩]
    exact hid
  | cons a X ih =>
    rw [List.cons_append] at hid ⊢
    rw [stripTrailingCommas_cons] at hid
    rw [stripTrailingCommas_cons]
    have hcond : ¬(a = ',' ∧ closerAfterWs (X ++ c :: Y) = true) := by
      rintro ⟨rfl, hcl⟩
      rw [if_pos ⟨rfl, hcl⟩] at hid
      have hle := stripTrailingCommas_length_le (X ++ c :: Y)
      have hlen := congrArg List.length hid
      rw [List.length_cons] at hlen
      omega
    rw [if_neg hcond] at hid
    injection hid with h1 htail
    have hcond2 : ¬(a = ',' ∧ closerAfterWs (X ++ ',' :: c :: Y) = true) := by
      rintro ⟨rfl, hcl⟩
      exact hcond ⟨rfl, closerAfterWs_of_insert X Y c hc hcl⟩
    rw [if_neg hcond2, ih htail, List.cons_append]

end JsonModel

namespace JsonModel

theorem upToLastBrace_of_getLast (rest : List Char)
    (h : rest.getLast? = some '}') : upToLastBrace rest = some rest := by
  obtain ⟨t, ht⟩ : ∃ t, rest.reverse = '}' :: t := by
    cases hr : rest.reverse with
    | nil =>
      rw [← List.head?_reverse, hr] at h
      simp at h
    | cons a t =>
      rw [← List.head?_reverse, hr] at h
      simp only [List.head?_cons, Option.some.injEq] at h
      exact ⟨t, by rw [h]⟩
  unfold upToLastBrace
  rw [ht]
  simp
  simpa using (congrArg List.reverse ht).symm

theorem jsonSpan_of_shape (cs : List Char) (h1 : cs.head? = some '{')
    (h2 : cs.getLast? = some '}') : jsonSpan cs = some cs := by
  cases cs with
  | nil => simp at h1
  | cons c rest =>
    simp only [List.head?_cons, Option.some.injEq] at h1
    subst h1
    have hrest : rest ≠ [] := by
      intro h
      subst h
      simp [List.getLast?] at h2
    have hlast : rest.getLast? = some '}' := by
      cases rest with
      | nil => exact absurd rfl hrest
      | cons b t => rw [← List.getLast?_cons_cons (a := '{')]; exact h2
    unfold jsonSpan
    simp [upToLastBrace_of_getLast rest hlast]

theorem count_insert_comma (X Z : List Char) (ch : Char) (h : ch ≠ ',') :
    (X ++ ',' :: Z).count ch = (X ++ Z).count ch := by
  have hne : ¬(',' = ch) := fun he => h he.symm
  simp [List.count_append, List.count_cons, hne]

end JsonModel

namespace JsonModel

/-- C7 amended claim: for every input text `X ++ "," ++ c :: Y` carrying
exactly one extra trailing comma immediately before a closing delimiter
`c` — i.e. the text does not parse as-is, while its separator-free
equivalent `X ++ c :: Y` is a brace-delimited JSON text parsing to `v` —
the extractor recovers exactly `v`, provided the repair passes leave the
separator-free text unchanged (no comma-before-closer or
brace-before-brace pattern inside its string literals) and its brace and
bracket character counts are balanced (no unmatched delimiter characters
inside string literals).  Without these provisos the recovery can return a
different value, as `c7_counterexample_string_literal` shows. -/
theorem c7_trailing_separator_recovery (X Y : List Char) (c : Char)
    (v : Json) (hc : c = '}' ∨ c = ']') (hX : X ≠ [])
    (hHead : (X ++ c :: Y).head? = some '{')
    (hLast : (X ++ c :: Y).getLast? = some '}')
    (hInvalid : JSONparse (X ++ ',' :: c :: Y) = none)
    (hValid : JSONparse (X ++ c :: Y) = some v)
    (hNo1 : stripTrailingCommas (X ++ c :: Y) = X ++ c :: Y)
    (hNo2 : insertMissingCommas (X ++ c :: Y) = X ++ c :: Y)
    (hNo3 : insertMissingCommasNewline (X ++ c :: Y) = X ++ c :: Y)
    (hBrace : (X ++ c :: Y).count '{' = (X ++ c :: Y).count '}')
    (hBracket : (X ++ c :: Y).count '[' = (X ++ c :: Y).count ']') :
    extractJSON (X ++ ',' :: c :: Y) = .ok v := by
  have hHeadT : (X ++ ',' :: c :: Y).head? = some '{' := by
    rw [List.head?_append_of_ne_nil _ hX]
    rw [List.head?_append_of_ne_nil _ hX] at hHead
    exact hHead
  have hLastT : (X ++ ',' :: c :: Y).getLast? = some '}' := by
    rw [List.getLast?_append_cons] at hLast ⊢
    rw [show (',' :: c :: Y).getLast? = (c :: Y).getLast? from
      List.getLast?_cons_cons]
    exact hLast
  have hspan := jsonSpan_of_shape (X ++ ',' :: c :: Y) hHeadT hLastT
  have hrepair : repairSeparators (X ++ ',' :: c :: Y) = X ++ c :: Y := by
    unfold repairSeparators
    rw [stripTrailingCommas_insert X Y c hc hNo1, hNo2, hNo3]
  have hbal : balanceClosers (X ++ c :: Y) = X ++ c :: Y := by
    unfold balanceClosers
    rw [if_neg]
    simp [hBrace, hBracket]
  unfold extractJSON
  rw [hspan]
  simp only [hInvalid, hrepair, hbal, hValid]

/-- Witness for `c7_trailing_separator_recovery` at the concrete input
`{"a": [1,]}`, recovering the value of `{"a": [1]}`. -/
theorem c7_trailing_separator_recovery_witness :
    extractJSON ("\x7b\"a\": [1".toList ++ ',' :: ']' :: "\x7d".toList) =
      .ok (.obj [(['a'], .arr [.num ['1']])]) :=
  c7_trailing_separator_recovery "\x7b\"a\": [1".toList "\x7d".toList ']'
    (.obj [(['a'], .arr [.num ['1']])]) (Or.inr rfl) (by decide)
    rfl rfl rfl rfl rfl rfl rfl rfl rfl

end JsonModel

namespace JsonModel

/-- Characters allowed inside modelled string literals: printable ASCII
excluding quote, backslash, JSON delimiters and the comma, so that string
contents cannot interact with the repair scanners or the delimiter
counting. -/
def SafeChar (c : Char) : Bool :=
  32 ≤ c.toNat ∧ c.toNat ≤ 126 ∧ c ≠ '"' ∧ c ≠ '\\' ∧ c ≠ '{' ∧
    c ≠ '}' ∧ c ≠ '[' ∧ c ≠ ']' ∧ c ≠ ','

/-- All characters safe. -/
def SafeString (s : List Char) : Bool := s.all SafeChar

/-- A canonical numeric lexeme: `0`, or a nonzero digit followed by
digits. -/
def SafeNum (lexeme : List Char) : Bool :=
  match lexeme with
  | [] => false
  | d :: ds => d.isDigit ∧ (ds.all Char.isDigit ∧ (d = '0' → ds = []))

mutual

/-- Values whose strings and numbers satisfy the safety restrictions. -/
def SafeJson : Json → Bool
  | .null => true
  | .bool _ => true
  | .num lexeme => SafeNum lexeme
  | .str s => SafeString s
  | .arr xs => SafeJsonList xs
  | .obj fs => SafeJsonFields fs

/-- All elements safe. -/
def SafeJsonList : List Json → Bool
  | [] => true
  | x :: xs => SafeJson x ∧ SafeJsonList xs

/-- All keys and values safe. -/
def SafeJsonFields : List (List Char × Json) → Bool
  | [] => true
  | (k, w) :: fs => SafeString k ∧ (SafeJson w ∧ SafeJsonFields fs)

end

mutual

/-- Compact rendering of a JSON value (no whitespace), the canonical text
that `JSON.parse` accepts for it. -/
def render : Json → List Char
  | .null => 'n' :: ['u', 'l', 'l']
  | .bool b => if b then 't' :: ['r', 'u', 'e'] else 'f' :: ['a', 'l', 's', 'e']
  | .num lexeme => lexeme
  | .str s => '"' :: s ++ ['"']
  | .arr xs => '[' :: renderElems xs ++ [']']
  | .obj fs => '{' :: renderFields fs ++ ['}']

/-- Comma-separated rendering of array elements. -/
def renderElems : List Json → List Char
  | [] => []
  | [x] => render x
  | x :: y :: xs => render x ++ ',' :: renderElems (y :: xs)

/-- Comma-separated rendering of object members. -/
def renderFields : List (List Char × Json) → List Char
  | [] => []
  | [(k, w)] => '"' :: k ++ '"' :: ':' :: render w
  | (k, w) :: f :: fs =>
    ('"' :: k ++ '"' :: ':' :: render w) ++ ',' :: renderFields (f :: fs)

end

/-- Rendering of one object member. -/
def renderField (k : List Char) (w : Json) : List Char :=
  '"' :: k ++ '"' :: ':' :: render w

theorem renderFields_single (k : List Char) (w : Json) :
    renderFields [(k, w)] = renderField k w := rfl

theorem renderFields_cons (k : List Char) (w : Json)
    (f : List Char × Json) (fs : List (List Char × Json)) :
    renderFields ((k, w) :: f :: fs) =
      renderField k w ++ ',' :: renderFields (f :: fs) := rfl

mutual

/-- Size measure used for parser fuel accounting. -/
def sizeJ : Json → Nat
  | .null => 1
  | .bool _ => 1
  | .num _ => 1
  | .str _ => 1
  | .arr xs => 2 + sizeJList xs
  | .obj fs => 2 + sizeJFields fs

/-- Size of an element list. -/
def sizeJList : List Json → Nat
  | [] => 1
  | x :: xs => sizeJ x + 1 + sizeJList xs

/-- Size of a field list. -/
def sizeJFields : List (List Char × Json) → Nat
  | [] => 1
  | (_, w) :: fs => sizeJ w + 1 + sizeJFields fs

end

theorem sizeJ_pos (v : Json) : 1 ≤ sizeJ v := by
  cases v <;> simp [sizeJ] <;> omega

theorem sizeJList_pos (xs : List Json) : 1 ≤ sizeJList xs := by
  cases xs with
  | nil => simp [sizeJList]
  | cons x xs =>
    have := sizeJ_pos x
    simp [sizeJList]
    omega

theorem sizeJFields_pos (fs : List (List Char × Json)) :
    1 ≤ sizeJFields fs := by
  cases fs with
  | nil => simp [sizeJFields]
  | cons f fs =>
    obtain ⟨k, w⟩ := f
    have := sizeJ_pos w
    simp [sizeJFields]
    omega

end JsonModel

namespace JsonModel

/-- Characters that can start a rendered JSON value. -/
def startChar (c : Char) : Bool :=
  c = '{' ∨ c = '[' ∨ c = '"' ∨ c = 't' ∨ c = 'f' ∨ c = 'n' ∨ c.isDigit

/-- Characters that can end a rendered JSON value. -/
def endChar (c : Char) : Bool :=
  c.isDigit ∨ c = '"' ∨ c = ']' ∨ c = '}' ∨ c = 'l' ∨ c = 'e'

theorem isDigit_not_regexWs (c : Char) (h : c.isDigit = true) :
    isRegexWs c = false := by
  by_contra hw
  rw [Bool.not_eq_false] at hw
  simp only [isRegexWs, decide_eq_true_eq] at hw
  rcases hw with rfl | rfl | rfl | rfl | rfl | rfl <;> simp at h

theorem startChar_not_regexWs (c : Char) (h : startChar c = true) :
    isRegexWs c = false := by
  simp only [startChar, decide_eq_true_eq] at h
  rcases h with rfl | rfl | rfl | rfl | rfl | rfl | hd
  · rfl
  · rfl
  · rfl
  · rfl
  · rfl
  · rfl
  · exact isDigit_not_regexWs c hd

theorem startChar_not_jsonWs (c : Char) (h : startChar c = true) :
    isJsonWs c = false := by
  have hr := startChar_not_regexWs c h
  by_contra hw
  rw [Bool.not_eq_false] at hw
  simp only [isJsonWs, decide_eq_true_eq] at hw
  simp only [isRegexWs, decide_eq_true_eq] at hr
  rcases hw with rfl | rfl | rfl | rfl <;> simp at hr

theorem startChar_ne_closer (c : Char) (h : startChar c = true) :
    c ≠ '}' ∧ c ≠ ']' ∧ c ≠ ',' ∧ c ≠ ':' := by
  simp only [startChar, decide_eq_true_eq] at h
  refine ⟨?_, ?_, ?_, ?_⟩ <;> rintro rfl <;>
    rcases h with h | h | h | h | h | h | h <;> simp_all

theorem endChar_ne_comma (c : Char) (h : endChar c = true) : c ≠ ',' := by
  simp only [endChar, decide_eq_true_eq] at h
  rintro rfl
  rcases h with h | h | h | h | h | h <;> simp_all

theorem all_digit_getLast (cs : List Char) (hne : cs ≠ [])
    (h : cs.all Char.isDigit = true) :
    ∃ c, cs.getLast? = some c ∧ c.isDigit = true := by
  obtain ⟨c, hc⟩ := Option.isSome_iff_exists.mp (List.getLast?_isSome.mpr hne)
  refine ⟨c, hc, ?_⟩
  have hm : c ∈ cs := by
    obtain ⟨hh, rfl⟩ := List.mem_getLast?_eq_getLast (l := cs) (x := c) hc
    exact List.getLast_mem hh
  exact List.all_eq_true.mp h c hm

theorem safeNum_shape (lexeme : List Char) (h : SafeNum lexeme = true) :
    lexeme ≠ [] ∧ lexeme.all Char.isDigit = true := by
  match lexeme with
  | [] => simp [SafeNum] at h
  | d :: ds =>
    simp only [SafeNum, decide_eq_true_eq] at h
    refine ⟨by simp, ?_⟩
    simp [h.1, h.2.1]

/-- A safe rendered value starts with a value-start character. -/
theorem render_head (v : Json) (h : SafeJson v = true) :
    ∃ c rest, render v = c :: rest ∧ startChar c = true := by
  cases v with
  | null => exact ⟨'n', _, rfl, by decide⟩
  | bool b =>
    cases b with
    | false => exact ⟨'f', _, rfl, by decide⟩
    | true => exact ⟨'t', _, rfl, by decide⟩
  | num lexeme =>
    simp only [SafeJson] at h
    obtain ⟨hne, hall⟩ := safeNum_shape lexeme h
    cases lexeme with
    | nil => exact absurd rfl hne
    | cons d ds =>
      have hd : d.isDigit = true := by
        simp only [List.all_cons, Bool.and_eq_true] at hall
        exact hall.1
      exact ⟨d, ds, rfl, by simp [startChar, hd]⟩
  | str s => exact ⟨'"', _, rfl, by decide⟩
  | arr xs => exact ⟨'[', _, rfl, by decide⟩
  | obj fs => exact ⟨'{', _, rfl, by decide⟩

/-- A safe rendered value ends with a value-end character. -/
theorem render_getLast (v : Json) (h : SafeJson v = true) :
    ∃ c, (render v).getLast? = some c ∧ endChar c = true := by
  cases v with
  | null => exact ⟨'l', rfl, by decide⟩
  | bool b =>
    cases b with
    | false => exact ⟨'e', rfl, by decide⟩
    | true => exact ⟨'e', rfl, by decide⟩
  | num lexeme =>
    simp only [SafeJson] at h
    obtain ⟨hne, hall⟩ := safeNum_shape lexeme h
    obtain ⟨c, hc, hd⟩ := all_digit_getLast lexeme hne hall
    exact ⟨c, hc, by simp [endChar, hd]⟩
  | str s =>
    refine ⟨'"', ?_, by decide⟩
    show ('"' :: s ++ ['"']).getLast? = some '"'
    rw [List.getLast?_concat]
  | arr xs =>
    refine ⟨']', ?_, by decide⟩
    show ('[' :: renderElems xs ++ [']']).getLast? = some ']'
    rw [List.getLast?_concat]
  | obj fs =>
    refine ⟨'}', ?_, by decide⟩
    show ('{' :: renderFields fs ++ ['}']).getLast? = some '}'
    rw [List.getLast?_concat]

end JsonModel

namespace JsonModel

/-- Lookahead check of `commaOk`: the character after a comma exists and is
neither whitespace nor a closing delimiter. -/
def commaOkHead (rest : List Char) : Bool :=
  match rest with
  | [] => false
  | d :: _ => !isRegexWs d && (!decide (d = '}') && !decide (d = ']'))

/-- Every comma in the text is immediately followed by a character that is
neither whitespace nor a closing delimiter (true of compact renderings,
where commas only separate elements).  Under this invariant the
trailing-comma repair is the identity. -/
def commaOk : List Char → Bool
  | [] => true
  | c :: rest => (if c = ',' then commaOkHead rest else true) && commaOk rest

/-- Lookahead check of `braceOk`: nothing follows the brace, or the next
character is neither whitespace nor an opening brace. -/
def braceOkHead (rest : List Char) : Bool :=
  match rest with
  | [] => true
  | d :: _ => !isRegexWs d && !decide (d = '{')

/-- Every closing brace is final or immediately followed by a character
that is neither whitespace nor an opening brace (true of compact
renderings).  Under this invariant both brace-brace repairs are the
identity. -/
def braceOk : List Char → Bool
  | [] => true
  | c :: rest => (if c = '}' then braceOkHead rest else true) && braceOk rest

theorem commaOkHead_cons_append (d : Char) (t B : List Char) :
    commaOkHead ((d :: t) ++ B) = commaOkHead (d :: t) := rfl

theorem commaOk_append (A B : List Char) (hA : commaOk A = true)
    (hB : commaOk B = true) : commaOk (A ++ B) = true := by
  induction A with
  | nil => simpa using hB
  | cons a A ih =>
    rw [List.cons_append]
    simp only [commaOk, Bool.and_eq_true] at hA ⊢
    refine ⟨?_, ih hA.2⟩
    by_cases ha : a = ','
    · rw [if_pos ha] at hA ⊢
      cases A with
      | nil => simp [commaOkHead] at hA
      | cons d t => rw [commaOkHead_cons_append]; exact hA.1
    · rw [if_neg ha]

theorem commaOk_cons (a : Char) (B : List Char)
    (h : a = ',' → commaOkHead B = true) (hB : commaOk B = true) :
    commaOk (a :: B) = true := by
  simp only [commaOk, Bool.and_eq_true]
  refine ⟨?_, hB⟩
  by_cases ha : a = ','
  · rw [if_pos ha]; exact h ha
  · rw [if_neg ha]

theorem commaOk_of_no_comma (cs : List Char) (h : ∀ c ∈ cs, c ≠ ',') :
    commaOk cs = true := by
  induction cs with
  | nil => rfl
  | cons a rest ih =>
    refine commaOk_cons a rest (fun ha => absurd ha (h a (by simp))) ?_
    exact ih (fun c hc => h c (by simp [hc]))

theorem braceOkHead_cons_append (d : Char) (t B : List Char) :
    braceOkHead ((d :: t) ++ B) = braceOkHead (d :: t) := rfl

theorem braceOk_append (A B : List Char) (hA : braceOk A = true)
    (hB : braceOk B = true) (hbd : braceOkHead B = true) :
    braceOk (A ++ B) = true := by
  induction A with
  | nil => simpa using hB
  | cons a A ih =>
    rw [List.cons_append]
    simp only [braceOk, Bool.and_eq_true] at hA ⊢
    refine ⟨?_, ih hA.2⟩
    by_cases ha : a = '}'
    · rw [if_pos ha] at hA ⊢
      cases A with
      | nil => simpa using hbd
      | cons d t => rw [braceOkHead_cons_append]; exact hA.1
    · rw [if_neg ha]

theorem braceOk_cons (a : Char) (B : List Char)
    (h : a = '}' → braceOkHead B = true) (hB : braceOk B = true) :
    braceOk (a :: B) = true := by
  simp only [braceOk, Bool.and_eq_true]
  refine ⟨?_, hB⟩
  by_cases ha : a = '}'
  · rw [if_pos ha]; exact h ha
  · rw [if_neg ha]

theorem braceOk_of_no_brace (cs : List Char) (h : ∀ c ∈ cs, c ≠ '}') :
    braceOk cs = true := by
  induction cs with
  | nil => rfl
  | cons a rest ih =>
    refine braceOk_cons a rest (fun ha => absurd ha (h a (by simp))) ?_
    exact ih (fun c hc => h c (by simp [hc]))


end JsonModel

namespace JsonModel

theorem commaOk_prefix (A B : List Char) (h : commaOk (A ++ B) = true)
    (hlast : A.getLast? ≠ some ',') : commaOk A = true := by
  induction A with
  | nil => rfl
  | cons a A ih =>
    rw [List.cons_append] at h
    simp only [commaOk, Bool.and_eq_true] at h ⊢
    have hlast2 : A.getLast? ≠ some ',' := by
      cases A with
      | nil => simp
      | cons b t => rw [← List.getLast?_cons_cons (a := a)]; exact hlast
    refine ⟨?_, ih h.2 hlast2⟩
    by_cases ha : a = ','
    · rw [if_pos ha] at h ⊢
      cases A with
      | nil => subst ha; simp at hlast
      | cons d t => rw [commaOkHead_cons_append] at h; exact h.1
    · rw [if_neg ha]

theorem braceOk_prefix (A B : List Char) (h : braceOk (A ++ B) = true) :
    braceOk A = true := by
  induction A with
  | nil => rfl
  | cons a A ih =>
    rw [List.cons_append] at h
    simp only [braceOk, Bool.and_eq_true] at h ⊢
    refine ⟨?_, ih h.2⟩
    by_cases ha : a = '}'
    · rw [if_pos ha] at h ⊢
      cases A with
      | nil => rfl
      | cons d t => rw [braceOkHead_cons_append] at h; exact h.1
    · rw [if_neg ha]

theorem closerAfterWs_eq_false_of_commaOkHead (rest : List Char)
    (h : commaOkHead rest = true) : closerAfterWs rest = false := by
  cases rest with
  | nil => rfl
  | cons d t =>
    simp only [commaOkHead, Bool.and_eq_true, Bool.not_eq_true',
      decide_eq_false_iff_not] at h
    simp only [closerAfterWs, List.dropWhile_cons, h.1, Bool.false_eq_true,
      if_false]
    simp [h.2.1, h.2.2]

theorem braceAfterWs_eq_false_of_braceOkHead (rest : List Char)
    (h : braceOkHead rest = true) : braceAfterWs rest = false := by
  cases rest with
  | nil => rfl
  | cons d t =>
    simp only [braceOkHead, Bool.and_eq_true, Bool.not_eq_true',
      decide_eq_false_iff_not] at h
    simp only [braceAfterWs, List.dropWhile_cons, h.1, Bool.false_eq_true,
      if_false]
    simp [h.2]

theorem stripTrailingCommas_of_commaOk (cs : List Char)
    (h : commaOk cs = true) : stripTrailingCommas cs = cs := by
  induction cs with
  | nil => rfl
  | cons a rest ih =>
    simp only [commaOk, Bool.and_eq_true] at h
    rw [stripTrailingCommas_cons]
    rw [if_neg, ih h.2]
    rintro ⟨rfl, hcl⟩
    rw [if_pos rfl] at h
    rw [closerAfterWs_eq_false_of_commaOkHead rest h.1] at hcl
    simp at hcl

theorem insertCommasGo_of_braceOk (cs : List Char)
    (h : braceOk cs = true) : insertCommasGo false cs = cs := by
  induction cs with
  | nil => rfl
  | cons a rest ih =>
    simp only [braceOk, Bool.and_eq_true] at h
    show (if a = '}' ∧ braceAfterWs rest = true then
        '}' :: ',' :: '\n' :: insertCommasGo true rest
      else a :: insertCommasGo false rest) = a :: rest
    rw [if_neg, ih h.2]
    rintro ⟨rfl, hcl⟩
    rw [if_pos rfl] at h
    rw [braceAfterWs_eq_false_of_braceOkHead rest h.1] at hcl
    simp at hcl

theorem insertCommasNlGo_of_braceOk (cs : List Char)
    (h : braceOk cs = true) : insertCommasNlGo false cs = cs := by
  induction cs with
  | nil => rfl
  | cons a rest ih =>
    simp only [braceOk, Bool.and_eq_true] at h
    show (if a = '}' ∧ braceAfterWsNl rest = true then
        '}' :: ',' :: '\n' :: insertCommasNlGo true rest
      else a :: insertCommasNlGo false rest) = a :: rest
    rw [if_neg, ih h.2]
    rintro ⟨rfl, hcl⟩
    rw [if_pos rfl] at h
    have hb := braceAfterWs_eq_false_of_braceOkHead rest h.1
    simp [braceAfterWsNl, hb] at hcl

end JsonModel

namespace JsonModel

theorem safeChar_facts (c : Char) (h : SafeChar c = true) :
    c ≠ ',' ∧ c ≠ '}' ∧ c ≠ '{' ∧ c ≠ '[' ∧ c ≠ ']' ∧ c ≠ '"' := by
  simp only [SafeChar, decide_eq_true_eq] at h
  exact ⟨h.2.2.2.2.2.2.2.2, h.2.2.2.2.2.1, h.2.2.2.2.1, h.2.2.2.2.2.2.1,
    h.2.2.2.2.2.2.2.1, h.2.2.1⟩

theorem digit_ne_delims (c : Char) (h : c.isDigit = true) :
    c ≠ ',' ∧ c ≠ '}' ∧ c ≠ '{' ∧ c ≠ '[' ∧ c ≠ ']' := by
  refine ⟨?_, ?_, ?_, ?_, ?_⟩ <;> rintro rfl <;> exact absurd h (by decide)

theorem safeJsonList_cons_iff (x : Json) (xs : List Json) :
    SafeJsonList (x :: xs) = true ↔
      (SafeJson x = true ∧ SafeJsonList xs = true) := by
  simp [SafeJsonList]

theorem safeJsonFields_cons_iff (k : List Char) (w : Json)
    (fs : List (List Char × Json)) :
    SafeJsonFields ((k, w) :: fs) = true ↔
      (SafeString k = true ∧ SafeJson w = true ∧
        SafeJsonFields fs = true) := by
  simp [SafeJsonFields]

theorem renderElems_head (y : Json) (ys : List Json)
    (h : SafeJson y = true) :
    ∃ c t, renderElems (y :: ys) = c :: t ∧ startChar c = true := by
  obtain ⟨c, r, hr, hc⟩ := render_head y h
  cases ys with
  | nil => exact ⟨c, r, by simp [renderElems, hr], hc⟩
  | cons z zs =>
    exact ⟨c, r ++ ',' :: renderElems (z :: zs),
      by simp [renderElems, hr], hc⟩

theorem renderField_shape (k : List Char) (w : Json) :
    renderField k w = ('"' :: k ++ ['"', ':']) ++ render w := by
  simp [renderField]

theorem commaOk_renderField_of (k : List Char) (w : Json)
    (hk : SafeString k = true) (hw : commaOk (render w) = true) :
    commaOk (renderField k w) = true := by
  rw [renderField_shape]
  refine commaOk_append _ _ ?_ hw
  refine commaOk_of_no_comma _ (fun c hc => ?_)
  rcases List.mem_cons.mp hc with rfl | hc2
  · decide
  rcases List.mem_append.mp hc2 with hk2 | hrest
  · exact (safeChar_facts c (List.all_eq_true.mp hk c hk2)).1
  · have : c = '"' ∨ c = ':' := by simpa using hrest
    rcases this with rfl | rfl <;> decide

theorem braceOk_renderField_of (k : List Char) (w : Json)
    (hk : SafeString k = true) (hw : braceOk (render w) = true) :
    braceOk (renderField k w) = true := by
  rw [renderField_shape]
  have hkOk : braceOk k = true := by
    refine braceOk_of_no_brace _ (fun c hc => ?_)
    exact (safeChar_facts c (List.all_eq_true.mp hk c hc)).2.1
  have hmid : braceOk ('"' :: ':' :: render w) = true := by
    refine braceOk_cons _ _ (fun hcontra => absurd hcontra (by decide)) ?_
    exact braceOk_cons _ _ (fun hcontra => absurd hcontra (by decide)) hw
  have hk2 : braceOk ('"' :: k ++ ['"', ':']) = true := by
    refine braceOk_cons _ _ (fun hcontra => absurd hcontra (by decide)) ?_
    refine braceOk_append _ _ hkOk (by decide) (by decide)
  have hshape : ('"' :: k ++ ['"', ':']) ++ render w =
      '"' :: (k ++ ('"' :: ':' :: render w)) := by simp
  rw [hshape]
  refine braceOk_cons _ _ (fun hcontra => absurd hcontra (by decide)) ?_
  refine braceOk_append _ _ hkOk hmid rfl

end JsonModel

namespace JsonModel

mutual

/-- Compact renderings of safe values contain no comma-before-closer
pattern. -/
theorem commaOk_render : ∀ v : Json, SafeJson v = true →
    commaOk (render v) = true
  | .null, _ => by decide
  | .bool b, _ => by cases b <;> decide
  | .num lexeme, h => by
    refine commaOk_of_no_comma _ (fun c hc => ?_)
    have hall := (safeNum_shape lexeme (by simpa [SafeJson] using h)).2
    exact (digit_ne_delims c (List.all_eq_true.mp hall c hc)).1
  | .str s, h => by
    refine commaOk_of_no_comma _ (fun c hc => ?_)
    rcases List.mem_cons.mp hc with rfl | hc2
    · decide
    rcases List.mem_append.mp hc2 with hs | hq
    · have hsafe : SafeString s = true := by simpa [SafeJson, SafeString] using h
      exact (safeChar_facts c (List.all_eq_true.mp hsafe c hs)).1
    · have : c = '"' := by simpa using hq
      subst this; decide
  | .arr xs, h => by
    have hxs : SafeJsonList xs = true := by simpa [SafeJson] using h
    show commaOk ('[' :: renderElems xs ++ [']']) = true
    refine commaOk_cons '[' _ (fun hcontra => absurd hcontra (by decide)) ?_
    exact commaOk_append _ _ (commaOk_renderElems xs hxs) (by decide)
  | .obj fs, h => by
    have hfs : SafeJsonFields fs = true := by simpa [SafeJson] using h
    show commaOk ('{' :: renderFields fs ++ ['}']) = true
    refine commaOk_cons '{' _ (fun hcontra => absurd hcontra (by decide)) ?_
    exact commaOk_append _ _ (commaOk_renderFields fs hfs) (by decide)

/-- Element-list renderings of safe values contain no comma-before-closer
pattern. -/
theorem commaOk_renderElems : ∀ xs : List Json, SafeJsonList xs = true →
    commaOk (renderElems xs) = true
  | [], _ => rfl
  | [x], h =>
    commaOk_render x ((safeJsonList_cons_iff x []).mp h).1
  | x :: y :: xs, h => by
    have h1 := ((safeJsonList_cons_iff x (y :: xs)).mp h).1
    have h2 := ((safeJsonList_cons_iff x (y :: xs)).mp h).2
    have h2y := ((safeJsonList_cons_iff y xs).mp h2).1
    show commaOk (render x ++ ',' :: renderElems (y :: xs)) = true
    refine commaOk_append _ _ (commaOk_render x h1) ?_
    refine commaOk_cons ',' _ (fun _ => ?_) (commaOk_renderElems (y :: xs) h2)
    obtain ⟨c, t, heq, hsc⟩ := renderElems_head y xs h2y
    rw [heq]
    have hws := startChar_not_regexWs c hsc
    obtain ⟨hne1, hne2, _, _⟩ := startChar_ne_closer c hsc
    simp [commaOkHead, hws, hne1, hne2]

/-- Field-list renderings of safe values contain no comma-before-closer
pattern. -/
theorem commaOk_renderFields : ∀ fs : List (List Char × Json),
    SafeJsonFields fs = true → commaOk (renderFields fs) = true
  | [], _ => rfl
  | [(k, w)], h => by
    obtain ⟨hk, hw, _⟩ := (safeJsonFields_cons_iff k w []).mp h
    rw [renderFields_single]
    exact commaOk_renderField_of k w hk (commaOk_render w hw)
  | (k, w) :: f :: fs, h => by
    obtain ⟨hk, hw, hrest⟩ := (safeJsonFields_cons_iff k w (f :: fs)).mp h
    rw [renderFields_cons]
    refine commaOk_append _ _
      (commaOk_renderField_of k w hk (commaOk_render w hw)) ?_
    have hf : SafeString f.1 = true ∧ SafeJson f.2 = true := by
      obtain ⟨k2, w2⟩ := f
      have := (safeJsonFields_cons_iff k2 w2 fs).mp hrest
      exact ⟨this.1, this.2.1⟩
    refine commaOk_cons ',' _ (fun _ => ?_)
      (commaOk_renderFields (f :: fs) hrest)
    obtain ⟨k2, w2⟩ := f
    cases fs with
    | nil =>
      rw [renderFields_single, renderField_shape]
      rfl
    | cons f2 fs2 =>
      rw [renderFields_cons, renderField_shape]
      rfl

end

end JsonModel

namespace JsonModel

mutual

/-- Compact renderings of safe values contain no brace-before-brace
pattern. -/
theorem braceOk_render : ∀ v : Json, SafeJson v = true →
    braceOk (render v) = true
  | .null, _ => by decide
  | .bool b, _ => by cases b <;> decide
  | .num lexeme, h => by
    refine braceOk_of_no_brace _ (fun c hc => ?_)
    have hall := (safeNum_shape lexeme (by simpa [SafeJson] using h)).2
    exact (digit_ne_delims c (List.all_eq_true.mp hall c hc)).2.1
  | .str s, h => by
    refine braceOk_of_no_brace _ (fun c hc => ?_)
    rcases List.mem_cons.mp hc with rfl | hc2
    · decide
    rcases List.mem_append.mp hc2 with hs | hq
    · have hsafe : SafeString s = true := by simpa [SafeJson, SafeString] using h
      exact (safeChar_facts c (List.all_eq_true.mp hsafe c hs)).2.1
    · have : c = '"' := by simpa using hq
      subst this; decide
  | .arr xs, h => by
    have hxs : SafeJsonList xs = true := by simpa [SafeJson] using h
    show braceOk ('[' :: renderElems xs ++ [']']) = true
    refine braceOk_cons '[' _ (fun hcontra => absurd hcontra (by decide)) ?_
    exact braceOk_append _ _ (braceOk_renderElems xs hxs) (by decide) (by decide)
  | .obj fs, h => by
    have hfs : SafeJsonFields fs = true := by simpa [SafeJson] using h
    show braceOk ('{' :: renderFields fs ++ ['}']) = true
    refine braceOk_cons '{' _ (fun hcontra => absurd hcontra (by decide)) ?_
    exact braceOk_append _ _ (braceOk_renderFields fs hfs) (by decide) (by decide)

/-- Element-list renderings of safe values contain no brace-before-brace
pattern. -/
theorem braceOk_renderElems : ∀ xs : List Json, SafeJsonList xs = true →
    braceOk (renderElems xs) = true
  | [], _ => rfl
  | [x], h =>
    braceOk_render x ((safeJsonList_cons_iff x []).mp h).1
  | x :: y :: xs, h => by
    have h1 := ((safeJsonList_cons_iff x (y :: xs)).mp h).1
    have h2 := ((safeJsonList_cons_iff x (y :: xs)).mp h).2
    show braceOk (render x ++ ',' :: renderElems (y :: xs)) = true
    refine braceOk_append _ _ (braceOk_render x h1) ?_ rfl
    refine braceOk_cons ',' _ (fun hcontra => absurd hcontra (by decide))
      (braceOk_renderElems (y :: xs) h2)

/-- Field-list renderings of safe values contain no brace-before-brace
pattern. -/
theorem braceOk_renderFields : ∀ fs : List (List Char × Json),
    SafeJsonFields fs = true → braceOk (renderFields fs) = true
  | [], _ => rfl
  | [(k, w)], h => by
    obtain ⟨hk, hw, _⟩ := (safeJsonFields_cons_iff k w []).mp h
    rw [renderFields_single]
    exact braceOk_renderField_of k w hk (braceOk_render w hw)
  | (k, w) :: f :: fs, h => by
    obtain ⟨hk, hw, hrest⟩ := (safeJsonFields_cons_iff k w (f :: fs)).mp h
    rw [renderFields_cons]
    refine braceOk_append _ _
      (braceOk_renderField_of k w hk (braceOk_render w hw)) ?_ rfl
    refine braceOk_cons ',' _ (fun hcontra => absurd hcontra (by decide))
      (braceOk_renderFields (f :: fs) hrest)

end

end JsonModel

namespace JsonModel

theorem count_eq_zero_of_all_ne (cs : List Char) (a : Char)
    (h : ∀ c ∈ cs, c ≠ a) : cs.count a = 0 :=
  List.count_eq_zero.mpr (fun hm => h a hm rfl)

theorem count_cons_ne (a b : Char) (l : List Char) (h : ¬b = a) :
    (b :: l).count a = l.count a := by
  simp [List.count_cons, h]

theorem count_cons_self (a : Char) (l : List Char) :
    (a :: l).count a = l.count a + 1 := by
  simp [List.count_cons]

/-- Counts of the four delimiter characters in a safe string rendering are
all zero. -/
theorem count_renderStr_zero (s : List Char) (hs : SafeString s = true)
    (a : Char) (ha : a = '{' ∨ a = '}' ∨ a = '[' ∨ a = ']') :
    ('"' :: s ++ ['"']).count a = 0 := by
  refine count_eq_zero_of_all_ne _ _ (fun c hc => ?_)
  rcases List.mem_cons.mp hc with rfl | hc2
  · rcases ha with rfl | rfl | rfl | rfl <;> decide
  rcases List.mem_append.mp hc2 with hmem | hq
  · have hsafe := safeChar_facts c (List.all_eq_true.mp hs c hmem)
    rcases ha with rfl | rfl | rfl | rfl
    · exact hsafe.2.2.1
    · exact hsafe.2.1
    · exact hsafe.2.2.2.1
    · exact hsafe.2.2.2.2.1
  · have : c = '"' := by simpa using hq
    subst this
    rcases ha with rfl | rfl | rfl | rfl <;> decide

theorem count_num_zero (lexeme : List Char) (h : SafeNum lexeme = true)
    (a : Char) (ha : a = '{' ∨ a = '}' ∨ a = '[' ∨ a = ']') :
    lexeme.count a = 0 := by
  refine count_eq_zero_of_all_ne _ _ (fun c hc => ?_)
  have hd := digit_ne_delims c
    (List.all_eq_true.mp (safeNum_shape lexeme h).2 c hc)
  rcases ha with rfl | rfl | rfl | rfl
  · exact hd.2.2.1
  · exact hd.2.1
  · exact hd.2.2.2.1
  · exact hd.2.2.2.2

theorem count_renderField_of (k : List Char) (w : Json)
    (hk : SafeString k = true)
    (ih1 : (render w).count '{' = (render w).count '}')
    (ih2 : (render w).count '[' = (render w).count ']') :
    ((renderField k w).count '{' = (renderField k w).count '}' ∧
      (renderField k w).count '[' = (renderField k w).count ']') := by
  rw [renderField_shape]
  have hkA : ∀ a : Char, (a = '{' ∨ a = '}' ∨ a = '[' ∨ a = ']') →
      List.count a ('"' :: k) = 0 := by
    intro a ha
    refine count_eq_zero_of_all_ne _ _ (fun c hc => ?_)
    rcases List.mem_cons.mp hc with rfl | hmem
    · rcases ha with rfl | rfl | rfl | rfl <;> decide
    · have hsafe := safeChar_facts c (List.all_eq_true.mp hk c hmem)
      rcases ha with rfl | rfl | rfl | rfl
      · exact hsafe.2.2.1
      · exact hsafe.2.1
      · exact hsafe.2.2.2.1
      · exact hsafe.2.2.2.2.1
  constructor
  · simp only [List.count_append]
    rw [hkA '{' (by simp), hkA '}' (by simp), ih1,
      show (['"', ':'] : List Char).count '{' = 0 from by decide,
      show (['"', ':'] : List Char).count '}' = 0 from by decide]
  · simp only [List.count_append]
    rw [hkA '[' (by simp), hkA ']' (by simp), ih2,
      show (['"', ':'] : List Char).count '[' = 0 from by decide,
      show (['"', ':'] : List Char).count ']' = 0 from by decide]

mutual

/-- Brace and bracket counts balance in safe renderings. -/
theorem count_render : ∀ v : Json, SafeJson v = true →
    ((render v).count '{' = (render v).count '}' ∧
      (render v).count '[' = (render v).count ']')
  | .null, _ => by decide
  | .bool b, _ => by cases b <;> decide
  | .num lexeme, h => by
    have hn : SafeNum lexeme = true := by simpa [SafeJson] using h
    constructor
    · show lexeme.count '{' = lexeme.count '}'
      rw [count_num_zero lexeme hn '{' (by simp),
        count_num_zero lexeme hn '}' (by simp)]
    · show lexeme.count '[' = lexeme.count ']'
      rw [count_num_zero lexeme hn '[' (by simp),
        count_num_zero lexeme hn ']' (by simp)]
  | .str s, h => by
    have hs : SafeString s = true := by simpa [SafeJson, SafeString] using h
    constructor
    · show ('"' :: s ++ ['"']).count '{' = ('"' :: s ++ ['"']).count '}'
      rw [count_renderStr_zero s hs '{' (by simp),
        count_renderStr_zero s hs '}' (by simp)]
    · show ('"' :: s ++ ['"']).count '[' = ('"' :: s ++ ['"']).count ']'
      rw [count_renderStr_zero s hs '[' (by simp),
        count_renderStr_zero s hs ']' (by simp)]
  | .arr xs, h => by
    have hxs : SafeJsonList xs = true := by simpa [SafeJson] using h
    obtain ⟨ih1, ih2⟩ := count_renderElems xs hxs
    constructor
    · show (('[' :: renderElems xs) ++ [']']).count '{' =
        (('[' :: renderElems xs) ++ [']']).count '}'
      rw [List.count_append, List.count_append,
        count_cons_ne '{' '[' _ (by decide),
        count_cons_ne '}' '[' _ (by decide), ih1,
        show ([']'] : List Char).count '{' = 0 from by decide,
        show ([']'] : List Char).count '}' = 0 from by decide]
    · show (('[' :: renderElems xs) ++ [']']).count '[' =
        (('[' :: renderElems xs) ++ [']']).count ']'
      rw [List.count_append, List.count_append, count_cons_self '[',
        count_cons_ne ']' '[' _ (by decide), ih2,
        show ([']'] : List Char).count '[' = 0 from by decide,
        show ([']'] : List Char).count ']' = 1 from by decide]
  | .obj fs, h => by
    have hfs : SafeJsonFields fs = true := by simpa [SafeJson] using h
    obtain ⟨ih1, ih2⟩ := count_renderFields fs hfs
    constructor
    · show (('{' :: renderFields fs) ++ ['}']).count '{' =
        (('{' :: renderFields fs) ++ ['}']).count '}'
      rw [List.count_append, List.count_append, count_cons_self '{',
        count_cons_ne '}' '{' _ (by decide), ih1,
        show (['}'] : List Char).count '{' = 0 from by decide,
        show (['}'] : List Char).count '}' = 1 from by decide]
    · show (('{' :: renderFields fs) ++ ['}']).count '[' =
        (('{' :: renderFields fs) ++ ['}']).count ']'
      rw [List.count_append, List.count_append,
        count_cons_ne '[' '{' _ (by decide),
        count_cons_ne ']' '{' _ (by decide), ih2,
        show (['}'] : List Char).count '[' = 0 from by decide,
        show (['}'] : List Char).count ']' = 0 from by decide]

/-- Brace and bracket counts balance in safe element-list renderings. -/
theorem count_renderElems : ∀ xs : List Json, SafeJsonList xs = true →
    ((renderElems xs).count '{' = (renderElems xs).count '}' ∧
      (renderElems xs).count '[' = (renderElems xs).count ']')
  | [], _ => by decide
  | [x], h => count_render x ((safeJsonList_cons_iff x []).mp h).1
  | x :: y :: xs, h => by
    have h1 := ((safeJsonList_cons_iff x (y :: xs)).mp h).1
    have h2 := ((safeJsonList_cons_iff x (y :: xs)).mp h).2
    obtain ⟨ihx1, ihx2⟩ := count_render x h1
    obtain ⟨ihr1, ihr2⟩ := count_renderElems (y :: xs) h2
    constructor
    · show (render x ++ ',' :: renderElems (y :: xs)).count '{' =
        (render x ++ ',' :: renderElems (y :: xs)).count '}'
      rw [List.count_append, List.count_append,
        count_cons_ne '{' ',' _ (by decide),
        count_cons_ne '}' ',' _ (by decide), ihx1, ihr1]
    · show (render x ++ ',' :: renderElems (y :: xs)).count '[' =
        (render x ++ ',' :: renderElems (y :: xs)).count ']'
      rw [List.count_append, List.count_append,
        count_cons_ne '[' ',' _ (by decide),
        count_cons_ne ']' ',' _ (by decide), ihx2, ihr2]

/-- Brace and bracket counts balance in safe field-list renderings. -/
theorem count_renderFields : ∀ fs : List (List Char × Json),
    SafeJsonFields fs = true →
    ((renderFields fs).count '{' = (renderFields fs).count '}' ∧
      (renderFields fs).count '[' = (renderFields fs).count ']')
  | [], _ => by decide
  | [(k, w)], h => by
    obtain ⟨hk, hw, _⟩ := (safeJsonFields_cons_iff k w []).mp h
    obtain ⟨ih1, ih2⟩ := count_render w hw
    rw [renderFields_single]
    exact count_renderField_of k w hk ih1 ih2
  | (k, w) :: f :: fs, h => by
    obtain ⟨hk, hw, hrest⟩ := (safeJsonFields_cons_iff k w (f :: fs)).mp h
    obtain ⟨ih1, ih2⟩ := count_render w hw
    obtain ⟨ihs1, ihs2⟩ := count_renderField_of k w hk ih1 ih2
    obtain ⟨ihr1, ihr2⟩ := count_renderFields (f :: fs) hrest
    rw [renderFields_cons]
    constructor
    · simp only [List.count_append]
      rw [count_cons_ne '{' ',' _ (by decide),
        count_cons_ne '}' ',' _ (by decide), ihs1, ihr1]
    · simp only [List.count_append]
      rw [count_cons_ne '[' ',' _ (by decide),
        count_cons_ne ']' ',' _ (by decide), ihs2, ihr2]

end

end JsonModel

namespace JsonModel

theorem skipWs_cons_not_ws (c : Char) (rest : List Char)
    (h : isJsonWs c = false) : skipWs (c :: rest) = c :: rest := by
  simp [skipWs, List.dropWhile_cons, h]

theorem safeChar_parse_facts (c : Char) (h : SafeChar c = true) :
    c ≠ '"' ∧ c ≠ '\\' ∧ (c.toNat < 32) = False := by
  simp only [SafeChar, decide_eq_true_eq] at h
  refine ⟨h.2.2.1, h.2.2.2.1, ?_⟩
  simp only [eq_iff_iff, iff_false, not_lt]
  omega

theorem parseStringBody_safe (s : List Char) (tail : List Char) :
    ∀ fuel : Nat, SafeString s = true → s.length < fuel →
    parseStringBody fuel (s ++ '"' :: tail) = some (s, tail) := by
  induction s with
  | nil =>
    intro fuel _ hf
    match fuel, hf with
    | f + 1, _ =>
      show parseStringBody (f + 1) ('"' :: tail) = some ([], tail)
      simp [parseStringBody]
  | cons c s ih =>
    intro fuel hs hf
    have hsc : SafeChar c = true ∧ SafeString s = true := by
      simpa [SafeString] using hs
    obtain ⟨h1, h2, h3⟩ := safeChar_parse_facts c hsc.1
    match fuel, hf with
    | f + 1, hf =>
      show parseStringBody (f + 1) (c :: (s ++ '"' :: tail)) = some (c :: s, tail)
      simp only [parseStringBody, if_neg h1, if_neg h2, h3, if_false]
      rw [ih f hsc.2 (by simpa using hf)]

theorem takeDigits_append (ds rest : List Char)
    (hds : ds.all Char.isDigit = true)
    (hrest : ∀ d t, rest = d :: t → d.isDigit = false) :
    takeDigits (ds ++ rest) = (ds, rest) := by
  unfold takeDigits
  induction ds with
  | nil =>
    simp only [List.nil_append]
    cases rest with
    | nil => simp
    | cons d t =>
      have := hrest d t rfl
      simp [List.takeWhile_cons, List.dropWhile_cons, this]
  | cons c cs ih =>
    have hc : c.isDigit = true ∧ cs.all Char.isDigit = true := by
      simpa using hds
    have ih2 := ih hc.2
    simp only [List.cons_append, List.takeWhile_cons, List.dropWhile_cons,
      hc.1, if_true]
    simp only [Prod.mk.injEq] at ih2 ⊢
    exact ⟨by rw [ih2.1], ih2.2⟩

/-- Characters that may legally follow a rendered value in our contexts:
end of input or a delimiter that cannot extend a numeric token. -/
def restDelim (rest : List Char) : Bool :=
  match rest with
  | [] => true
  | d :: _ => d = ',' ∨ d = '}' ∨ d = ']' ∨ d = '\n'

theorem restDelim_not_digit (rest : List Char) (h : restDelim rest = true) :
    ∀ d t, rest = d :: t → (d.isDigit = false ∧ d ≠ '.' ∧ d ≠ 'e' ∧
      d ≠ 'E' ∧ d ≠ '-') := by
  intro d t ht
  subst ht
  simp only [restDelim, decide_eq_true_eq] at h
  rcases h with rfl | rfl | rfl | rfl <;> refine ⟨by decide, by decide,
    by decide, by decide, by decide⟩

theorem parseFrac_delim (rest : List Char) (h : restDelim rest = true) :
    parseFrac rest = some ([], rest) := by
  cases rest with
  | nil => rfl
  | cons d t =>
    obtain ⟨_, hdot, _, _, _⟩ := restDelim_not_digit (d :: t) h d t rfl
    simp [parseFrac, hdot]

theorem parseExp_delim (rest : List Char) (h : restDelim rest = true) :
    parseExp rest = some ([], rest) := by
  cases rest with
  | nil => rfl
  | cons d t =>
    obtain ⟨_, _, he, hE, _⟩ := restDelim_not_digit (d :: t) h d t rfl
    simp [parseExp, he, hE]

theorem parseNumber_safe (lex rest : List Char) (h : SafeNum lex = true)
    (hr : restDelim rest = true) :
    parseNumber (lex ++ rest) = some (lex, rest) := by
  match lex, h with
  | d :: ds, h =>
    simp only [SafeNum, decide_eq_true_eq] at h
    obtain ⟨hd, hds, hzero⟩ := h
    have hneg : d ≠ '-' := by rintro rfl; simp at hd
    have hint : parseIntPart ((d :: ds) ++ rest) = some (d :: ds, rest) := by
      by_cases h0 : d = '0'
      · subst h0
        have : ds = [] := hzero rfl
        subst this
        simp [parseIntPart]
      · have htd := takeDigits_append (d :: ds) rest (by simp [hd, hds])
          (fun e t het => (restDelim_not_digit rest hr e t het).1)
        simp only [parseIntPart, List.cons_append, if_neg h0, hd, if_true]
        simp only [List.cons_append] at htd
        rw [htd]
    show parseNumber ((d :: ds) ++ rest) = some (d :: ds, rest)
    rw [List.cons_append]
    simp only [parseNumber, if_neg hneg]
    rw [← List.cons_append, hint]
    simp only [parseFrac_delim rest hr, parseExp_delim rest hr,
      List.append_nil]

end JsonModel

namespace JsonModel

theorem digit_not_jsonWs (c : Char) (h : c.isDigit = true) :
    isJsonWs c = false :=
  startChar_not_jsonWs c (by simp [startChar, h])

theorem digit_ne_starters (c : Char) (h : c.isDigit = true) :
    c ≠ '{' ∧ c ≠ '[' ∧ c ≠ '"' ∧ c ≠ 't' ∧ c ≠ 'f' ∧ c ≠ 'n' := by
  refine ⟨?_, ?_, ?_, ?_, ?_, ?_⟩ <;> rintro rfl <;> exact absurd h (by decide)

theorem parseValue_succ_brace (fuel : Nat) (rest : List Char) :
    parseValue (fuel + 1) ('{' :: rest) = parseMembers fuel rest := rfl

theorem parseValue_succ_bracket (fuel : Nat) (rest : List Char) :
    parseValue (fuel + 1) ('[' :: rest) = parseElements fuel rest := rfl

theorem parseValue_succ_quote (fuel : Nat) (rest : List Char) :
    parseValue (fuel + 1) ('"' :: rest) =
      (match parseStringBody (rest.length + 1) rest with
       | none => none
       | some (s, r) => some (.str s, r)) := rfl

theorem parseValue_succ_number (fuel : Nat) (c : Char) (rest : List Char)
    (hws : isJsonWs c = false) (h1 : c ≠ '{') (h2 : c ≠ '[') (h3 : c ≠ '"')
    (h4 : c ≠ 't') (h5 : c ≠ 'f') (h6 : c ≠ 'n') :
    parseValue (fuel + 1) (c :: rest) =
      (match parseNumber (c :: rest) with
       | none => none
       | some (lex, r) => some (.num lex, r)) := by
  show (match skipWs (c :: rest) with
    | [] => none
    | c :: rest =>
      if c = '{' then parseMembers fuel rest
      else if c = '[' then parseElements fuel rest
      else if c = '"' then
        match parseStringBody (rest.length + 1) rest with
        | none => none
        | some (s, r) => some (.str s, r)
      else if c = 't' then
        match rest with
        | 'r' :: 'u' :: 'e' :: r => some (.bool true, r)
        | _ => none
      else if c = 'f' then
        match rest with
        | 'a' :: 'l' :: 's' :: 'e' :: r => some (.bool false, r)
        | _ => none
      else if c = 'n' then
        match rest with
        | 'u' :: 'l' :: 'l' :: r => some (.null, r)
        | _ => none
      else
        match parseNumber (c :: rest) with
        | none => none
        | some (lex, r) => some (.num lex, r)) = _
  rw [skipWs_cons_not_ws c rest hws]
  simp only [if_neg h1, if_neg h2, if_neg h3, if_neg h4, if_neg h5,
    if_neg h6]

end JsonModel

namespace JsonModel

theorem parseElementsLoop_succ (g : Nat) (cs : List Char) (acc : List Json) :
    parseElementsLoop (g + 1) cs acc =
      (match parseValue g cs with
       | none => none
       | some (v, r) =>
         match skipWs r with
         | [] => none
         | d :: r2 =>
           if d = ',' then parseElementsLoop g r2 (acc ++ [v])
           else if d = ']' then some (.arr (acc ++ [v]), r2)
           else none) := rfl

theorem parseMembersLoop_succ (g : Nat) (cs : List Char)
    (acc : List (List Char × Json)) :
    parseMembersLoop (g + 1) cs acc =
      (match skipWs cs with
       | [] => none
       | q :: rest =>
         if q = '"' then
           match parseStringBody (rest.length + 1) rest with
           | none => none
           | some (key, r) =>
             match skipWs r with
             | [] => none
             | col :: r2 =>
               if col = ':' then
                 match parseValue g r2 with
                 | none => none
                 | some (v, r3) =>
                   match skipWs r3 with
                   | [] => none
                   | d :: r4 =>
                     if d = ',' then parseMembersLoop g r4 (acc ++ [(key, v)])
                     else if d = '}' then some (.obj (acc ++ [(key, v)]), r4)
                     else none
               else none
         else none) := rfl

theorem parseElements_succ (g : Nat) (cs : List Char) :
    parseElements (g + 1) cs =
      (match skipWs cs with
       | [] => parseElementsLoop g cs []
       | d :: rest =>
         if d = ']' then some (.arr [], rest)
         else parseElementsLoop g cs []) := rfl

theorem parseMembers_succ (g : Nat) (cs : List Char) :
    parseMembers (g + 1) cs =
      (match skipWs cs with
       | [] => parseMembersLoop g cs []
       | d :: rest =>
         if d = '}' then some (.obj [], rest)
         else parseMembersLoop g cs []) := rfl

theorem parseElementsLoop_render (n : Nat)
    (IH : ∀ (v : Json) (rest : List Char) (fuel : Nat), sizeJ v ≤ n →
      SafeJson v = true → restDelim rest = true → sizeJ v < fuel →
      parseValue fuel (render v ++ rest) = some (v, rest)) :
    ∀ (xs : List Json) (acc : List Json) (rest : List Char) (fuel : Nat),
      xs ≠ [] → SafeJsonList xs = true → sizeJList xs ≤ n →
      sizeJList xs < fuel → restDelim rest = true →
      parseElementsLoop fuel (renderElems xs ++ ']' :: rest) acc =
        some (.arr (acc ++ xs), rest) := by
  intro xs
  induction xs with
  | nil => intro acc rest fuel hne; exact absurd rfl hne
  | cons x tail ihtail =>
    intro acc rest fuel _ hsafe hszn hfuel hrest
    obtain ⟨hx, htail⟩ := (safeJsonList_cons_iff x tail).mp hsafe
    have hxpos := sizeJ_pos x
    have htpos := sizeJList_pos tail
    have hx_n : sizeJ x ≤ n := by
      simp only [sizeJList] at hszn; omega
    match fuel, hfuel with
    | g + 1, hfuel =>
      have hszg : sizeJ x + 1 + sizeJList tail < g + 1 := by
        simpa [sizeJList] using hfuel
      rw [parseElementsLoop_succ]
      cases tail with
      | nil =>
        have hval := IH x (']' :: rest) g hx_n hx (by rfl)
          (by simp [sizeJList] at hszg; omega)
        show (match parseValue g (renderElems [x] ++ ']' :: rest) with
          | none => none
          | some (v, r) =>
            match skipWs r with
            | [] => none
            | d :: r2 =>
              if d = ',' then parseElementsLoop g r2 (acc ++ [v])
              else if d = ']' then some (.arr (acc ++ [v]), r2)
              else none) = some (.arr (acc ++ [x]), rest)
        rw [show renderElems [x] = render x from rfl, hval]
        show (match skipWs (']' :: rest) with
          | [] => none
          | d :: r2 =>
            if d = ',' then parseElementsLoop g r2 (acc ++ [x])
            else if d = ']' then some (.arr (acc ++ [x]), r2)
            else none) = some (.arr (acc ++ [x]), rest)
        rw [show skipWs (']' :: rest) = ']' :: rest from rfl]
        simp
      | cons y ys =>
        have hE : renderElems (x :: y :: ys) ++ ']' :: rest =
            render x ++ (',' :: (renderElems (y :: ys) ++ ']' :: rest)) := by
          show (render x ++ ',' :: renderElems (y :: ys)) ++ ']' :: rest = _
          simp
        rw [hE]
        have hval := IH x (',' :: (renderElems (y :: ys) ++ ']' :: rest)) g
          hx_n hx (by rfl) (by omega)
        rw [hval]
        show (match skipWs (',' :: (renderElems (y :: ys) ++ ']' :: rest)) with
          | [] => none
          | d :: r2 =>
            if d = ',' then parseElementsLoop g r2 (acc ++ [x])
            else if d = ']' then some (.arr (acc ++ [x]), r2)
            else none) = some (.arr (acc ++ (x :: y :: ys)), rest)
        rw [show skipWs (',' :: (renderElems (y :: ys) ++ ']' :: rest)) =
          ',' :: (renderElems (y :: ys) ++ ']' :: rest) from rfl]
        show (if ',' = ',' then
            parseElementsLoop g (renderElems (y :: ys) ++ ']' :: rest) (acc ++ [x])
          else if ',' = ']' then
            some (.arr (acc ++ [x]), renderElems (y :: ys) ++ ']' :: rest)
          else none) = some (.arr (acc ++ (x :: y :: ys)), rest)
        rw [if_pos rfl]
        have hGoal := ihtail (acc ++ [x]) rest g (by simp) htail
          (by simp only [sizeJList] at hszn ⊢; omega)
          (by simp only [sizeJList] at hszg ⊢; omega) hrest
        rw [hGoal]
        simp

end JsonModel

namespace JsonModel

theorem parseMembersLoop_one (n : Nat)
    (IH : ∀ (v : Json) (rest : List Char) (fuel : Nat), sizeJ v ≤ n →
      SafeJson v = true → restDelim rest = true → sizeJ v < fuel →
      parseValue fuel (render v ++ rest) = some (v, rest))
    (g : Nat) (k : List Char) (w : Json) (tail : List Char)
    (acc : List (List Char × Json))
    (hk : SafeString k = true) (hw : SafeJson w = true)
    (hwn : sizeJ w ≤ n) (hwg : sizeJ w < g)
    (htail : restDelim tail = true) :
    parseMembersLoop (g + 1) (renderField k w ++ tail) acc =
      (match skipWs tail with
       | [] => none
       | d :: r4 =>
         if d = ',' then parseMembersLoop g r4 (acc ++ [(k, w)])
         else if d = '}' then some (.obj (acc ++ [(k, w)]), r4)
         else none) := by
  have hI : renderField k w ++ tail =
      '"' :: (k ++ '"' :: ':' :: (render w ++ tail)) := by
    simp [renderField]
  rw [parseMembersLoop_succ, hI]
  rw [show skipWs ('"' :: (k ++ '"' :: ':' :: (render w ++ tail))) =
    '"' :: (k ++ '"' :: ':' :: (render w ++ tail)) from rfl]
  show (if ('"' : Char) = '"' then
      match parseStringBody
          ((k ++ '"' :: ':' :: (render w ++ tail)).length + 1)
          (k ++ '"' :: ':' :: (render w ++ tail)) with
      | none => none
      | some (key, r) =>
        match skipWs r with
        | [] => none
        | col :: r2 =>
          if col = ':' then
            match parseValue g r2 with
            | none => none
            | some (v, r3) =>
              match skipWs r3 with
              | [] => none
              | d :: r4 =>
                if d = ',' then parseMembersLoop g r4 (acc ++ [(key, v)])
                else if d = '}' then some (.obj (acc ++ [(key, v)]), r4)
                else none
          else none
      else none) = _
  rw [if_pos rfl]
  rw [parseStringBody_safe k (':' :: (render w ++ tail))
    ((k ++ '"' :: ':' :: (render w ++ tail)).length + 1) hk
    (by simp; omega)]
  show (match skipWs (':' :: (render w ++ tail)) with
    | [] => none
    | col :: r2 =>
      if col = ':' then
        match parseValue g r2 with
        | none => none
        | some (v, r3) =>
          match skipWs r3 with
          | [] => none
          | d :: r4 =>
            if d = ',' then parseMembersLoop g r4 (acc ++ [(k, v)])
            else if d = '}' then some (.obj (acc ++ [(k, v)]), r4)
            else none
      else none) = _
  rw [show skipWs (':' :: (render w ++ tail)) = ':' :: (render w ++ tail)
    from rfl]
  show (if (':' : Char) = ':' then
      match parseValue g (render w ++ tail) with
      | none => none
      | some (v, r3) =>
        match skipWs r3 with
        | [] => none
        | d :: r4 =>
          if d = ',' then parseMembersLoop g r4 (acc ++ [(k, v)])
          else if d = '}' then some (.obj (acc ++ [(k, v)]), r4)
          else none
      else none) = _
  rw [if_pos rfl, IH w tail g hwn hw htail hwg]

end JsonModel

namespace JsonModel

theorem parseMembersLoop_render (n : Nat)
    (IH : ∀ (v : Json) (rest : List Char) (fuel : Nat), sizeJ v ≤ n →
      SafeJson v = true → restDelim rest = true → sizeJ v < fuel →
      parseValue fuel (render v ++ rest) = some (v, rest)) :
    ∀ (fs : List (List Char × Json)) (acc : List (List Char × Json))
      (rest : List Char) (fuel : Nat),
      fs ≠ [] → SafeJsonFields fs = true → sizeJFields fs ≤ n →
      sizeJFields fs < fuel → restDelim rest = true →
      parseMembersLoop fuel (renderFields fs ++ '}' :: rest) acc =
        some (.obj (acc ++ fs), rest) := by
  intro fs
  induction fs with
  | nil => intro acc rest fuel hne; exact absurd rfl hne
  | cons kv tail ihtail =>
    obtain ⟨k, w⟩ := kv
    intro acc rest fuel _ hsafe hszn hfuel hrest
    obtain ⟨hk, hw, htail⟩ := (safeJsonFields_cons_iff k w tail).mp hsafe
    have hwpos := sizeJ_pos w
    have htpos := sizeJFields_pos tail
    have hw_n : sizeJ w ≤ n := by
      simp only [sizeJFields] at hszn; omega
    match fuel, hfuel with
    | g + 1, hfuel =>
      have hszg : sizeJ w + 1 + sizeJFields tail < g + 1 := by
        simpa [sizeJFields] using hfuel
      cases tail with
      | nil =>
        rw [show renderFields [(k, w)] ++ '}' :: rest =
          renderField k w ++ '}' :: rest from rfl]
        rw [parseMembersLoop_one n IH g k w ('}' :: rest) acc hk hw hw_n
          (by simp only [sizeJFields] at hszg; omega) (by rfl)]
        rw [show skipWs ('}' :: rest) = '}' :: rest from rfl]
        show (if ('}' : Char) = ',' then
            parseMembersLoop g rest (acc ++ [(k, w)])
          else if ('}' : Char) = '}' then
            some (.obj (acc ++ [(k, w)]), rest)
          else none) = some (.obj (acc ++ [(k, w)]), rest)
        simp
      | cons kv2 tail2 =>
        obtain ⟨k2, w2⟩ := kv2
        have hE : renderFields ((k, w) :: (k2, w2) :: tail2) ++ '}' :: rest =
            renderField k w ++
              (',' :: (renderFields ((k2, w2) :: tail2) ++ '}' :: rest)) := by
          rw [renderFields_cons]
          simp
        rw [hE]
        rw [parseMembersLoop_one n IH g k w
          (',' :: (renderFields ((k2, w2) :: tail2) ++ '}' :: rest)) acc
          hk hw hw_n (by omega) (by rfl)]
        rw [show skipWs
          (',' :: (renderFields ((k2, w2) :: tail2) ++ '}' :: rest)) =
          ',' :: (renderFields ((k2, w2) :: tail2) ++ '}' :: rest) from rfl]
        show (if (',' : Char) = ',' then
            parseMembersLoop g (renderFields ((k2, w2) :: tail2) ++ '}' :: rest)
              (acc ++ [(k, w)])
          else if (',' : Char) = '}' then
            some (.obj (acc ++ [(k, w)]),
              renderFields ((k2, w2) :: tail2) ++ '}' :: rest)
          else none) =
          some (.obj (acc ++ ((k, w) :: (k2, w2) :: tail2)), rest)
        rw [if_pos rfl]
        rw [ihtail (acc ++ [(k, w)]) rest g (by simp) htail
          (by simp only [sizeJFields] at hszn ⊢; omega)
          (by simp only [sizeJFields] at hszg ⊢; omega) hrest]
        simp

end JsonModel

namespace JsonModel

theorem startChar_ne_closers (c : Char) (h : startChar c = true) :
    c ≠ ']' ∧ c ≠ '}' := by
  refine ⟨?_, ?_⟩ <;> rintro rfl <;> revert h <;> decide

theorem renderFields_head (k : List Char) (w : Json)
    (ft : List (List Char × Json)) :
    ∃ t, renderFields ((k, w) :: ft) = '"' :: t := by
  cases ft with
  | nil => exact ⟨k ++ '"' :: ':' :: render w, rfl⟩
  | cons f2 ft2 =>
    exact ⟨(k ++ '"' :: ':' :: render w) ++ ',' :: renderFields (f2 :: ft2),
      by simp [renderFields]⟩

/-- Round trip: the compact rendering of a safe value parses back to the
value, leaving the rest of the input untouched, whenever the following
character is a delimiter. -/
theorem parseValue_render :
    ∀ (n : Nat) (v : Json) (rest : List Char) (fuel : Nat),
      sizeJ v ≤ n → SafeJson v = true → restDelim rest = true →
      sizeJ v < fuel → parseValue fuel (render v ++ rest) = some (v, rest) := by
  intro n
  induction n with
  | zero =>
    intro v rest fuel hn _ _ _
    have := sizeJ_pos v
    omega
  | succ m ihm =>
    intro v rest fuel hn hsafe hrest hfuel
    match fuel, hfuel with
    | g + 1, hfuel =>
      cases v with
      | null => rfl
      | bool b => cases b <;> rfl
      | num lexeme =>
        have hsn : SafeNum lexeme = true := by simpa [SafeJson] using hsafe
        match lexeme, hsn with
        | d :: ds, hsn =>
          have hsn' := hsn
          simp only [SafeNum, decide_eq_true_eq] at hsn'
          obtain ⟨hd, _, _⟩ := hsn'
          have h6 := digit_ne_starters d hd
          have hws := digit_not_jsonWs d hd
          have hE : render (.num (d :: ds)) ++ rest = d :: (ds ++ rest) := by
            simp [render]
          rw [hE, parseValue_succ_number g d (ds ++ rest) hws h6.1 h6.2.1
            h6.2.2.1 h6.2.2.2.1 h6.2.2.2.2.1 h6.2.2.2.2.2]
          rw [show d :: (ds ++ rest) = (d :: ds) ++ rest from rfl]
          rw [parseNumber_safe (d :: ds) rest hsn hrest]
      | str s =>
        have hs : SafeString s = true := by simpa [SafeJson] using hsafe
        have hE : render (.str s) ++ rest = '"' :: (s ++ '"' :: rest) := by
          show ('"' :: (s ++ ['"'])) ++ rest = _
          simp
        rw [hE, parseValue_succ_quote]
        rw [parseStringBody_safe s rest ((s ++ '"' :: rest).length + 1) hs
          (by simp; omega)]
      | arr xs =>
        have hlp := sizeJList_pos xs
        have hg : 1 ≤ g := by
          simp only [sizeJ] at hfuel; omega
        match g, hg with
        | g' + 1, _ =>
          have hE : render (.arr xs) ++ rest =
              '[' :: (renderElems xs ++ ']' :: rest) := by
            show ('[' :: (renderElems xs ++ [']'])) ++ rest = _
            simp
          rw [hE, parseValue_succ_bracket, parseElements_succ]
          cases xs with
          | nil =>
            rw [show renderElems ([] : List Json) ++ ']' :: rest =
              ']' :: rest from rfl]
            rw [show skipWs (']' :: rest) = ']' :: rest from rfl]
            show (if (']' : Char) = ']' then some (.arr [], rest)
              else parseElementsLoop g' (']' :: rest) []) =
              some (.arr [], rest)
            simp
          | cons x xt =>
            have hsafe' : SafeJsonList (x :: xt) = true := by
              simpa [SafeJson] using hsafe
            obtain ⟨hx, _⟩ := (safeJsonList_cons_iff x xt).mp hsafe'
            obtain ⟨c, t, hct, hc⟩ := renderElems_head x xt hx
            rw [hct]
            have hcw : isJsonWs c = false := startChar_not_jsonWs c hc
            rw [show (c :: t) ++ ']' :: rest = c :: (t ++ ']' :: rest)
              from rfl]
            rw [skipWs_cons_not_ws c (t ++ ']' :: rest) hcw]
            show (if c = ']' then some (.arr [], t ++ ']' :: rest)
              else parseElementsLoop g' (c :: (t ++ ']' :: rest)) []) =
              some (.arr (x :: xt), rest)
            rw [if_neg ((startChar_ne_closers c hc).1)]
            rw [show c :: (t ++ ']' :: rest) = (c :: t) ++ ']' :: rest
              from rfl, ← hct]
            rw [parseElementsLoop_render m ihm (x :: xt) [] rest g'
              (by simp) hsafe'
              (by simp only [sizeJ] at hn; omega)
              (by simp only [sizeJ] at hfuel; omega) hrest]
            simp
      | obj fs =>
        have hlp := sizeJFields_pos fs
        have hg : 1 ≤ g := by
          simp only [sizeJ] at hfuel; omega
        match g, hg with
        | g' + 1, _ =>
          have hE : render (.obj fs) ++ rest =
              '{' :: (renderFields fs ++ '}' :: rest) := by
            show ('{' :: (renderFields fs ++ ['}'])) ++ rest = _
            simp
          rw [hE, parseValue_succ_brace, parseMembers_succ]
          cases fs with
          | nil =>
            rw [show renderFields ([] : List (List Char × Json)) ++
              '}' :: rest = '}' :: rest from rfl]
            rw [show skipWs ('}' :: rest) = '}' :: rest from rfl]
            show (if ('}' : Char) = '}' then some (.obj [], rest)
              else parseMembersLoop g' ('}' :: rest) []) =
              some (.obj [], rest)
            simp
          | cons kv ft =>
            obtain ⟨k, w⟩ := kv
            have hsafe' : SafeJsonFields ((k, w) :: ft) = true := by
              simpa [SafeJson] using hsafe
            obtain ⟨t, ht⟩ := renderFields_head k w ft
            rw [ht]
            rw [show ('"' :: t) ++ '}' :: rest = '"' :: (t ++ '}' :: rest)
              from rfl]
            rw [skipWs_cons_not_ws '"' (t ++ '}' :: rest) (by decide)]
            show (if ('"' : Char) = '}' then
                some (.obj [], t ++ '}' :: rest)
              else parseMembersLoop g' ('"' :: (t ++ '}' :: rest)) []) =
              some (.obj ((k, w) :: ft), rest)
            rw [if_neg (by decide)]
            rw [show '"' :: (t ++ '}' :: rest) = ('"' :: t) ++ '}' :: rest
              from rfl, ← ht]
            rw [parseMembersLoop_render m ihm ((k, w) :: ft) [] rest g'
              (by simp) hsafe'
              (by simp only [sizeJ] at hn; omega)
              (by simp only [sizeJ] at hfuel; omega) hrest]
            simp

end JsonModel

namespace JsonModel

/-- The two closing delimiters the balancing step can append. -/
def isCloser (c : Char) : Bool := c = ']' ∨ c = '}'

theorem mem_of_getLast?_ch : ∀ (l : List Char) (a : Char),
    l.getLast? = some a → a ∈ l := by
  intro l
  induction l with
  | nil => intro a h; cases h
  | cons x xs ih =>
    intro a h
    cases xs with
    | nil =>
      simp [List.getLast?] at h
      simp [h]
    | cons y ys =>
      rw [List.getLast?_cons_cons] at h
      exact List.mem_cons_of_mem x (ih a h)

theorem eq_dropLast_concat (l : List Char) (a : Char)
    (h : l.getLast? = some a) : l = l.dropLast ++ [a] := by
  have hne : l ≠ [] := by rintro rfl; cases h
  have h2 := List.getLast?_eq_getLast l hne
  rw [h2] at h
  injection h with h3
  rw [← h3]
  exact (List.dropLast_append_getLast hne).symm

/-- A suffix made only of closing delimiters cannot reach past a
non-closer character: the split point lies strictly to its right. -/
theorem closer_suffix_split (A B S suf : List Char) (c : Char)
    (h : A ++ c :: B = S ++ suf) (hall : suf.all isCloser = true)
    (hc : isCloser c = false) :
    ∃ T, S = A ++ c :: T ∧ B = T ++ suf := by
  have hmem : ∀ x ∈ suf, isCloser x = true := List.all_eq_true.mp hall
  have hsuf : suf <:+ A ++ c :: B := ⟨S, h.symm⟩
  have hcB : c :: B <:+ A ++ c :: B := ⟨A, rfl⟩
  rcases List.suffix_or_suffix_of_suffix hsuf hcB with h1 | h2
  · obtain ⟨T', hT⟩ := h1
    cases T' with
    | nil =>
      exfalso
      simp at hT
      have hcm : c ∈ suf := by rw [hT]; exact List.mem_cons_self c B
      rw [hmem c hcm] at hc
      simp at hc
    | cons c' T =>
      rw [List.cons_append] at hT
      injection hT with h4 h5
      refine ⟨T, ?_, h5.symm⟩
      have h6 : (A ++ c :: T) ++ suf = S ++ suf := by
        rw [← h, ← h5]
        simp
      exact (List.append_cancel_right h6).symm
  · exfalso
    have hcm : c ∈ suf := h2.subset (List.mem_cons_self c B)
    rw [hmem c hcm] at hc
    simp at hc

theorem decorateClosers_append (a b : List Char) :
    decorateClosers (a ++ b) = decorateClosers a ++ decorateClosers b := by
  simp [decorateClosers]

/-- Text of an array whose listed elements are complete and whose last
element is replaced by an arbitrary continuation. -/
def elemsCutText : List Json → List Char → List Char
  | [], tail => tail
  | x :: xs, tail => render x ++ ',' :: elemsCutText xs tail

/-- Text of an object whose listed members are complete and whose last
member is replaced by an arbitrary continuation. -/
def fieldsCutText : List (List Char × Json) → List Char → List Char
  | [], tail => tail
  | (k, w) :: fs, tail => renderField k w ++ ',' :: fieldsCutText fs tail

theorem elemsCutText_append : ∀ (xs : List Json) (a b : List Char),
    elemsCutText xs a ++ b = elemsCutText xs (a ++ b) := by
  intro xs
  induction xs with
  | nil => intro a b; rfl
  | cons x xt ih => intro a b; simp [elemsCutText, ih]

theorem fieldsCutText_append : ∀ (fs : List (List Char × Json))
    (a b : List Char),
    fieldsCutText fs a ++ b = fieldsCutText fs (a ++ b) := by
  intro fs
  induction fs with
  | nil => intro a b; rfl
  | cons kv ft ih =>
    obtain ⟨k, w⟩ := kv
    intro a b
    simp [fieldsCutText, ih]

theorem safeJsonList_append_iff (a b : List Json) :
    SafeJsonList (a ++ b) = true ↔
      (SafeJsonList a = true ∧ SafeJsonList b = true) := by
  induction a with
  | nil => simp [SafeJsonList]
  | cons x xt ih =>
    simp [List.cons_append, safeJsonList_cons_iff, ih, and_assoc]

theorem safeJsonFields_append_iff (a b : List (List Char × Json)) :
    SafeJsonFields (a ++ b) = true ↔
      (SafeJsonFields a = true ∧ SafeJsonFields b = true) := by
  induction a with
  | nil => simp [SafeJsonFields]
  | cons kv ft ih =>
    obtain ⟨k, w⟩ := kv
    simp [List.cons_append, safeJsonFields_cons_iff, ih, and_assoc]

theorem sizeJList_append : ∀ (a b : List Json),
    sizeJList (a ++ b) + 1 = sizeJList a + sizeJList b := by
  intro a b
  induction a with
  | nil =>
    simp only [List.nil_append, sizeJList]
    omega
  | cons x xt ih =>
    simp only [List.cons_append, sizeJList, List.append_eq] at ih ⊢
    omega

theorem sizeJFields_append : ∀ (a b : List (List Char × Json)),
    sizeJFields (a ++ b) + 1 = sizeJFields a + sizeJFields b := by
  intro a b
  induction a with
  | nil =>
    simp only [List.nil_append, sizeJFields]
    omega
  | cons kv ft ih =>
    obtain ⟨k, w⟩ := kv
    simp only [List.cons_append, sizeJFields, List.append_eq] at ih ⊢
    omega

end JsonModel

namespace JsonModel

/-- A closer-only suffix of a rendered element list lands inside the last
element; everything earlier is complete. -/
theorem renderElems_cut_split : ∀ (xs : List Json) (S₂ suf : List Char),
    xs ≠ [] → renderElems xs = S₂ ++ suf → suf.all isCloser = true →
    ∃ init xl S_in, xs = init ++ [xl] ∧ render xl = S_in ++ suf ∧
      S₂ = elemsCutText init S_in := by
  intro xs
  induction xs with
  | nil => intro S₂ suf hne; exact absurd rfl hne
  | cons x xt ih =>
    intro S₂ suf _ heq hall
    cases xt with
    | nil =>
      exact ⟨[], x, S₂, rfl, by simpa [renderElems] using heq, rfl⟩
    | cons y yt =>
      have heq' : render x ++ ',' :: renderElems (y :: yt) = S₂ ++ suf := by
        simpa [renderElems] using heq
      obtain ⟨T, hS, hB⟩ := closer_suffix_split (render x)
        (renderElems (y :: yt)) S₂ suf ',' heq' hall (by decide)
      obtain ⟨init', xl, S_in, hxs, hrw, hT2⟩ := ih T suf (by simp) hB hall
      refine ⟨x :: init', xl, S_in, by simp [hxs], hrw, ?_⟩
      rw [hS, hT2]
      rfl

/-- A closer-only suffix of a rendered member list lands inside the value
of the last member; its key and the earlier members are complete. -/
theorem renderFields_cut_split : ∀ (fs : List (List Char × Json))
    (S₂ suf : List Char),
    fs ≠ [] → renderFields fs = S₂ ++ suf → suf.all isCloser = true →
    ∃ finit k w S_in, fs = finit ++ [(k, w)] ∧ render w = S_in ++ suf ∧
      S₂ = fieldsCutText finit ('"' :: (k ++ '"' :: ':' :: S_in)) := by
  intro fs
  induction fs with
  | nil => intro S₂ suf hne; exact absurd rfl hne
  | cons kv ft ih =>
    obtain ⟨k, w⟩ := kv
    intro S₂ suf _ heq hall
    cases ft with
    | nil =>
      have heq' : ('"' :: k ++ ['"']) ++ ':' :: render w = S₂ ++ suf := by
        simpa [renderFields] using heq
      obtain ⟨T, hS, hB⟩ := closer_suffix_split ('"' :: k ++ ['"'])
        (render w) S₂ suf ':' heq' hall (by decide)
      refine ⟨[], k, w, T, rfl, hB, ?_⟩
      rw [hS]
      simp [fieldsCutText]
    | cons kv2 ft2 =>
      rw [renderFields_cons] at heq
      obtain ⟨T, hS, hB⟩ := closer_suffix_split (renderField k w)
        (renderFields (kv2 :: ft2)) S₂ suf ',' heq hall (by decide)
      obtain ⟨finit', k', w', S_in, hfs, hrw, hT2⟩ := ih T suf (by simp) hB hall
      refine ⟨(k, w) :: finit', k', w', S_in, by simp [hfs], hrw, ?_⟩
      rw [hS, hT2]
      rfl

theorem elemsCutText_head (init : List Json) (S₀ : List Char) (c₀ : Char)
    (t₀ : List Char) (hsafe : SafeJsonList init = true) (h0 : S₀ = c₀ :: t₀)
    (hc0 : startChar c₀ = true) :
    ∃ c t, elemsCutText init S₀ = c :: t ∧ startChar c = true := by
  cases init with
  | nil => exact ⟨c₀, t₀, h0, hc0⟩
  | cons x xt =>
    obtain ⟨hx, _⟩ := (safeJsonList_cons_iff x xt).mp hsafe
    obtain ⟨c, r, hr, hc⟩ := render_head x hx
    exact ⟨c, r ++ ',' :: elemsCutText xt S₀, by simp [elemsCutText, hr], hc⟩

end JsonModel

namespace JsonModel

theorem parseMembersLoop_oneGen (g : Nat) (k X tail : List Char) (w : Json)
    (acc : List (List Char × Json)) (hk : SafeString k = true)
    (hV : parseValue g X = some (w, tail)) :
    parseMembersLoop (g + 1) ('"' :: (k ++ '"' :: ':' :: X)) acc =
      (match skipWs tail with
       | [] => none
       | d :: r4 =>
         if d = ',' then parseMembersLoop g r4 (acc ++ [(k, w)])
         else if d = '}' then some (.obj (acc ++ [(k, w)]), r4)
         else none) := by
  rw [parseMembersLoop_succ]
  rw [show skipWs ('"' :: (k ++ '"' :: ':' :: X)) =
    '"' :: (k ++ '"' :: ':' :: X) from rfl]
  show (if ('"' : Char) = '"' then
      match parseStringBody ((k ++ '"' :: ':' :: X).length + 1)
          (k ++ '"' :: ':' :: X) with
      | none => none
      | some (key, r) =>
        match skipWs r with
        | [] => none
        | col :: r2 =>
          if col = ':' then
            match parseValue g r2 with
            | none => none
            | some (v, r3) =>
              match skipWs r3 with
              | [] => none
              | d :: r4 =>
                if d = ',' then parseMembersLoop g r4 (acc ++ [(key, v)])
                else if d = '}' then some (.obj (acc ++ [(key, v)]), r4)
                else none
          else none
      else none) = _
  rw [if_pos rfl]
  rw [parseStringBody_safe k (':' :: X)
    ((k ++ '"' :: ':' :: X).length + 1) hk (by simp; omega)]
  show (match skipWs (':' :: X) with
    | [] => none
    | col :: r2 =>
      if col = ':' then
        match parseValue g r2 with
        | none => none
        | some (v, r3) =>
          match skipWs r3 with
          | [] => none
          | d :: r4 =>
            if d = ',' then parseMembersLoop g r4 (acc ++ [(k, v)])
            else if d = '}' then some (.obj (acc ++ [(k, v)]), r4)
            else none
      else none) = _
  rw [show skipWs (':' :: X) = ':' :: X from rfl]
  show (if (':' : Char) = ':' then
      match parseValue g X with
      | none => none
      | some (v, r3) =>
        match skipWs r3 with
        | [] => none
        | d :: r4 =>
          if d = ',' then parseMembersLoop g r4 (acc ++ [(k, v)])
          else if d = '}' then some (.obj (acc ++ [(k, v)]), r4)
          else none
      else none) = _
  rw [if_pos rfl, hV]

end JsonModel

namespace JsonModel

theorem parseElementsLoop_cutText (m : Nat)
    (IHcut : ∀ (v : Json) (S suf rest : List Char) (fuel : Nat),
      sizeJ v ≤ m → SafeJson v = true → render v = S ++ suf →
      suf.all isCloser = true → restDelim rest = true → sizeJ v < fuel →
      parseValue fuel (S ++ (decorateClosers suf ++ rest)) = some (v, rest)) :
    ∀ (init : List Json) (xl : Json) (S_in suf_in : List Char)
      (acc : List Json) (rest T : List Char) (fuel : Nat),
      SafeJsonList init = true → SafeJson xl = true → sizeJ xl ≤ m →
      render xl = S_in ++ suf_in → suf_in.all isCloser = true →
      restDelim T = true → skipWs T = ']' :: rest →
      sizeJList init + sizeJ xl < fuel →
      parseElementsLoop fuel
        (elemsCutText init (S_in ++ (decorateClosers suf_in ++ T))) acc =
        some (.arr (acc ++ init ++ [xl]), rest) := by
  intro init
  induction init with
  | nil =>
    intro xl S_in suf_in acc rest T fuel _ hxl hm hrw hall hT hTskip hfuel
    match fuel, hfuel with
    | g + 1, hfuel =>
      rw [parseElementsLoop_succ]
      rw [show elemsCutText [] (S_in ++ (decorateClosers suf_in ++ T)) =
        S_in ++ (decorateClosers suf_in ++ T) from rfl]
      rw [IHcut xl S_in suf_in T g hm hxl hrw hall hT
        (by simp only [sizeJList] at hfuel; omega)]
      show (match skipWs T with
        | [] => none
        | d :: r2 =>
          if d = ',' then parseElementsLoop g r2 (acc ++ [xl])
          else if d = ']' then some (.arr (acc ++ [xl]), r2)
          else none) = some (.arr (acc ++ [] ++ [xl]), rest)
      rw [hTskip]
      show (if (']' : Char) = ',' then parseElementsLoop g rest (acc ++ [xl])
        else if (']' : Char) = ']' then some (.arr (acc ++ [xl]), rest)
        else none) = some (.arr (acc ++ [] ++ [xl]), rest)
      simp
  | cons x it ih =>
    intro xl S_in suf_in acc rest T fuel hsafe hxl hm hrw hall hT hTskip hfuel
    obtain ⟨hx, hit⟩ := (safeJsonList_cons_iff x it).mp hsafe
    have hxpos := sizeJ_pos x
    have hitpos := sizeJList_pos it
    have hxlpos := sizeJ_pos xl
    match fuel, hfuel with
    | g + 1, hfuel =>
      have hszg : sizeJ x + 1 + sizeJList it + sizeJ xl < g + 1 := by
        simp only [sizeJList] at hfuel
        omega
      rw [parseElementsLoop_succ]
      rw [show elemsCutText (x :: it) (S_in ++ (decorateClosers suf_in ++ T)) =
        render x ++
          ',' :: elemsCutText it (S_in ++ (decorateClosers suf_in ++ T))
        from rfl]
      rw [parseValue_render (sizeJ x) x
        (',' :: elemsCutText it (S_in ++ (decorateClosers suf_in ++ T))) g
        le_rfl hx (by rfl) (by omega)]
      show (match skipWs
          (',' :: elemsCutText it (S_in ++ (decorateClosers suf_in ++ T))) with
        | [] => none
        | d :: r2 =>
          if d = ',' then parseElementsLoop g r2 (acc ++ [x])
          else if d = ']' then some (.arr (acc ++ [x]), r2)
          else none) = some (.arr (acc ++ (x :: it) ++ [xl]), rest)
      rw [show skipWs
        (',' :: elemsCutText it (S_in ++ (decorateClosers suf_in ++ T))) =
        ',' :: elemsCutText it (S_in ++ (decorateClosers suf_in ++ T))
        from rfl]
      show (if (',' : Char) = ',' then
          parseElementsLoop g
            (elemsCutText it (S_in ++ (decorateClosers suf_in ++ T)))
            (acc ++ [x])
        else if (',' : Char) = ']' then
          some (.arr (acc ++ [x]),
            elemsCutText it (S_in ++ (decorateClosers suf_in ++ T)))
        else none) = some (.arr (acc ++ (x :: it) ++ [xl]), rest)
      rw [if_pos rfl]
      rw [ih xl S_in suf_in (acc ++ [x]) rest T g hit hxl hm hrw hall hT
        hTskip (by omega)]
      simp

end JsonModel

namespace JsonModel

theorem parseMembersLoop_cutText (m : Nat)
    (IHcut : ∀ (v : Json) (S suf rest : List Char) (fuel : Nat),
      sizeJ v ≤ m → SafeJson v = true → render v = S ++ suf →
      suf.all isCloser = true → restDelim rest = true → sizeJ v < fuel →
      parseValue fuel (S ++ (decorateClosers suf ++ rest)) = some (v, rest)) :
    ∀ (finit : List (List Char × Json)) (k : List Char) (w : Json)
      (S_in suf_in : List Char) (acc : List (List Char × Json))
      (rest T : List Char) (fuel : Nat),
      SafeJsonFields finit = true → SafeString k = true →
      SafeJson w = true → sizeJ w ≤ m →
      render w = S_in ++ suf_in → suf_in.all isCloser = true →
      restDelim T = true → skipWs T = '}' :: rest →
      sizeJFields finit + sizeJ w < fuel →
      parseMembersLoop fuel
        (fieldsCutText finit ('"' :: (k ++ '"' :: ':' ::
          (S_in ++ (decorateClosers suf_in ++ T))))) acc =
        some (.obj (acc ++ finit ++ [(k, w)]), rest) := by
  intro finit
  induction finit with
  | nil =>
    intro k w S_in suf_in acc rest T fuel _ hk hw hm hrw hall hT hTskip hfuel
    match fuel, hfuel with
    | g + 1, hfuel =>
      rw [show fieldsCutText [] ('"' :: (k ++ '"' :: ':' ::
        (S_in ++ (decorateClosers suf_in ++ T)))) =
        '"' :: (k ++ '"' :: ':' :: (S_in ++ (decorateClosers suf_in ++ T)))
        from rfl]
      rw [parseMembersLoop_oneGen g k
        (S_in ++ (decorateClosers suf_in ++ T)) T w acc hk
        (IHcut w S_in suf_in T g hm hw hrw hall hT
          (by simp only [sizeJFields] at hfuel; omega))]
      rw [hTskip]
      show (if ('}' : Char) = ',' then
          parseMembersLoop g rest (acc ++ [(k, w)])
        else if ('}' : Char) = '}' then
          some (.obj (acc ++ [(k, w)]), rest)
        else none) = some (.obj (acc ++ [] ++ [(k, w)]), rest)
      simp
  | cons kv2 ft2 ih =>
    obtain ⟨k2, w2⟩ := kv2
    intro k w S_in suf_in acc rest T fuel hsafe hk hw hm hrw hall hT
      hTskip hfuel
    obtain ⟨hk2, hw2, hft2⟩ := (safeJsonFields_cons_iff k2 w2 ft2).mp hsafe
    have hw2pos := sizeJ_pos w2
    have hf2pos := sizeJFields_pos ft2
    have hwpos := sizeJ_pos w
    match fuel, hfuel with
    | g + 1, hfuel =>
      have hszg : sizeJ w2 + 1 + sizeJFields ft2 + sizeJ w < g + 1 := by
        simp only [sizeJFields] at hfuel
        omega
      rw [show fieldsCutText ((k2, w2) :: ft2) ('"' :: (k ++ '"' :: ':' ::
        (S_in ++ (decorateClosers suf_in ++ T)))) =
        renderField k2 w2 ++ ',' :: fieldsCutText ft2 ('"' :: (k ++ '"' ::
          ':' :: (S_in ++ (decorateClosers suf_in ++ T)))) from rfl]
      rw [parseMembersLoop_one (sizeJ w2)
        (fun v r f h1 h2 h3 h4 => parseValue_render (sizeJ w2) v r f h1 h2 h3 h4)
        g k2 w2
        (',' :: fieldsCutText ft2 ('"' :: (k ++ '"' :: ':' ::
          (S_in ++ (decorateClosers suf_in ++ T))))) acc hk2 hw2 le_rfl
        (by omega) (by rfl)]
      rw [show skipWs (',' :: fieldsCutText ft2 ('"' :: (k ++ '"' :: ':' ::
        (S_in ++ (decorateClosers suf_in ++ T))))) =
        ',' :: fieldsCutText ft2 ('"' :: (k ++ '"' :: ':' ::
          (S_in ++ (decorateClosers suf_in ++ T)))) from rfl]
      show (if (',' : Char) = ',' then
          parseMembersLoop g (fieldsCutText ft2 ('"' :: (k ++ '"' :: ':' ::
            (S_in ++ (decorateClosers suf_in ++ T))))) (acc ++ [(k2, w2)])
        else if (',' : Char) = '}' then
          some (.obj (acc ++ [(k2, w2)]),
            fieldsCutText ft2 ('"' :: (k ++ '"' :: ':' ::
              (S_in ++ (decorateClosers suf_in ++ T)))))
        else none) =
        some (.obj (acc ++ ((k2, w2) :: ft2) ++ [(k, w)]), rest)
      rw [if_pos rfl]
      rw [ih k w S_in suf_in (acc ++ [(k2, w2)]) rest T g hft2 hk hw hm hrw
        hall hT hTskip (by omega)]
      simp

end JsonModel

namespace JsonModel

theorem digit_not_closer (c : Char) (h : c.isDigit = true) :
    isCloser c = false := by
  cases hc : isCloser c with
  | false => rfl
  | true =>
    exfalso
    simp only [isCloser, decide_eq_true_eq] at hc
    rcases hc with rfl | rfl <;> simp at h

/-- Truncation recovery: if the rendering of a safe value is cut by
removing a suffix made only of closing delimiters, then re-appending each
removed delimiter preceded by a newline yields text that parses back to
the very same value. -/
theorem parseValue_renderCut :
    ∀ (n : Nat) (v : Json) (S suf rest : List Char) (fuel : Nat),
      sizeJ v ≤ n → SafeJson v = true → render v = S ++ suf →
      suf.all isCloser = true → restDelim rest = true → sizeJ v < fuel →
      parseValue fuel (S ++ (decorateClosers suf ++ rest)) = some (v, rest) := by
  intro n
  induction n with
  | zero =>
    intro v S suf rest fuel hn _ _ _ _ _
    have := sizeJ_pos v
    omega
  | succ m ihm =>
    intro v S suf rest fuel hn hsafe hSV hall hrest hfuel
    by_cases hsufne : suf = []
    · subst hsufne
      have hS : S = render v := by simpa using hSV.symm
      subst hS
      show parseValue fuel (render v ++ (decorateClosers [] ++ rest)) =
        some (v, rest)
      rw [show decorateClosers [] = ([] : List Char) from rfl,
        List.nil_append]
      exact parseValue_render (sizeJ v) v rest fuel le_rfl hsafe hrest hfuel
    · cases v with
      | null =>
        exfalso
        have h2 : (render Json.null).getLast? = suf.getLast? := by
          rw [hSV]
          exact List.getLast?_append_of_ne_nil S hsufne
        have h1 : suf.getLast? = some 'l' := by rw [← h2]; rfl
        have hclo := (List.all_eq_true.mp hall) 'l'
          (mem_of_getLast?_ch suf 'l' h1)
        simp [isCloser] at hclo
      | bool b =>
        exfalso
        have h2 : (render (Json.bool b)).getLast? = suf.getLast? := by
          rw [hSV]
          exact List.getLast?_append_of_ne_nil S hsufne
        have h1 : suf.getLast? = some 'e' := by
          rw [← h2]
          cases b <;> rfl
        have hclo := (List.all_eq_true.mp hall) 'e'
          (mem_of_getLast?_ch suf 'e' h1)
        simp [isCloser] at hclo
      | str s =>
        exfalso
        have h2 : (render (Json.str s)).getLast? = suf.getLast? := by
          rw [hSV]
          exact List.getLast?_append_of_ne_nil S hsufne
        have h1 : suf.getLast? = some '"' := by
          rw [← h2]
          show (('"' :: s) ++ ['"']).getLast? = some '"'
          rw [List.getLast?_append_of_ne_nil ('"' :: s) (by simp)]
          rfl
        have hclo := (List.all_eq_true.mp hall) '"'
          (mem_of_getLast?_ch suf '"' h1)
        simp [isCloser] at hclo
      | num lexeme =>
        exfalso
        have hsn : SafeNum lexeme = true := by simpa [SafeJson] using hsafe
        obtain ⟨c', hc'⟩ : ∃ c', suf.getLast? = some c' :=
          ⟨suf.getLast hsufne, List.getLast?_eq_getLast suf hsufne⟩
        have hmem := mem_of_getLast?_ch suf c' hc'
        have hclo := (List.all_eq_true.mp hall) c' hmem
        have hmem2 : c' ∈ lexeme := by
          have hm : c' ∈ S ++ suf := List.mem_append_right S hmem
          rw [← hSV] at hm
          simpa [render] using hm
        match lexeme, hsn, hmem2 with
        | d :: ds, hsn, hmem2 =>
          simp only [SafeNum, decide_eq_true_eq] at hsn
          obtain ⟨hd, hds, _⟩ := hsn
          have hdig : c'.isDigit = true := by
            rcases List.mem_cons.mp hmem2 with rfl | hmm2
            · exact hd
            · exact (List.all_eq_true.mp hds) c' hmm2
          rw [digit_not_closer c' hdig] at hclo
          simp at hclo
      | arr xs =>
        have hSV' : '[' :: (renderElems xs ++ [']']) = S ++ suf := by
          simpa [render] using hSV
        obtain ⟨S₂, hS, hB⟩ := closer_suffix_split []
          (renderElems xs ++ [']']) S suf '[' hSV' hall (by decide)
        simp only [List.nil_append] at hS
        have hlast : suf.getLast? = some ']' := by
          have h1 : (S₂ ++ suf).getLast? = suf.getLast? :=
            List.getLast?_append_of_ne_nil S₂ hsufne
          rw [← hB] at h1
          rw [List.getLast?_append_of_ne_nil (renderElems xs) (by simp)] at h1
          simpa using h1.symm
        have hsufd := eq_dropLast_concat suf ']' hlast
        have hE' : renderElems xs = S₂ ++ suf.dropLast := by
          have h2 : renderElems xs ++ [']'] =
              (S₂ ++ suf.dropLast) ++ [']'] := by
            rw [hB, hsufd]
            simp
          have h3 := congrArg List.dropLast h2
          simpa [List.dropLast_concat] using h3
        have hall'' : (suf.dropLast).all isCloser = true := by
          rw [hsufd, List.all_append, Bool.and_eq_true] at hall
          exact hall.1
        obtain ⟨g, rfl⟩ : ∃ g, fuel = g + 2 := by
          refine ⟨fuel - 2, ?_⟩
          have h4 : 3 ≤ sizeJ (Json.arr xs) := by
            have := sizeJList_pos xs
            simp only [sizeJ]
            omega
          omega
        cases xs with
        | nil =>
          have h0 : S₂ ++ suf.dropLast = [] := by
            simpa [renderElems] using hE'.symm
          obtain ⟨hS₂0, hsuf0⟩ := List.append_eq_nil.mp h0
          have hsufval : suf = [']'] := by rw [hsufd, hsuf0]; rfl
          rw [hS, hS₂0, hsufval]
          show parseValue (g + 1 + 1) ('[' :: '\n' :: ']' :: rest) =
            some (.arr [], rest)
          rw [parseValue_succ_bracket, parseElements_succ]
          rw [show skipWs ('\n' :: ']' :: rest) = ']' :: rest from rfl]
          show (if (']' : Char) = ']' then some (.arr [], rest)
            else parseElementsLoop g ('\n' :: ']' :: rest) []) =
            some (.arr [], rest)
          simp
        | cons x xt =>
          have hsafeL : SafeJsonList (x :: xt) = true := by
            simpa [SafeJson] using hsafe
          obtain ⟨init, xl, S_in, hxs, hrw, hS₂⟩ :=
            renderElems_cut_split (x :: xt) S₂ suf.dropLast (by simp)
              hE' hall''
          have hsplit : SafeJsonList init = true ∧
              SafeJsonList [xl] = true := by
            rw [hxs] at hsafeL
            exact (safeJsonList_append_iff init [xl]).mp hsafeL
          have hxl : SafeJson xl = true :=
            ((safeJsonList_cons_iff xl []).mp hsplit.2).1
          obtain ⟨c, rr, hcr, hc⟩ := render_head xl hxl
          obtain ⟨tin, htin⟩ : ∃ t, S_in = c :: t := by
            cases hSin0 : S_in with
            | nil =>
              exfalso
              rw [hSin0] at hrw
              simp only [List.nil_append] at hrw
              have hcm : c ∈ suf.dropLast := by
                rw [← hrw, hcr]
                exact List.mem_cons_self c rr
              have hcc := (List.all_eq_true.mp hall'') c hcm
              obtain ⟨hne1, hne2⟩ := startChar_ne_closers c hc
              simp [isCloser, hne1, hne2] at hcc
            | cons c0 t0 =>
              rw [hcr, hSin0] at hrw
              rw [List.cons_append] at hrw
              injection hrw with hcc _
              exact ⟨t0, by rw [hcc]⟩
          have hszap := sizeJList_append init [xl]
          have hsl : sizeJList [xl] = sizeJ xl + 2 := by
            simp only [sizeJList]
          have hinitpos := sizeJList_pos init
          have hn' : 2 + sizeJList (init ++ [xl]) ≤ m + 1 := by
            rw [← hxs]
            simpa [sizeJ] using hn
          have hfuel' : 2 + sizeJList (init ++ [xl]) < g + 2 := by
            rw [← hxs]
            simpa [sizeJ] using hfuel
          have htext : ('[' :: S₂) ++ (decorateClosers suf ++ rest) =
              '[' :: elemsCutText init (S_in ++ (decorateClosers suf.dropLast
                ++ ('\n' :: ']' :: rest))) := by
            rw [hsufd, decorateClosers_append,
              show decorateClosers [']'] = ['\n', ']'] from rfl, hS₂]
            simp only [List.cons_append, List.append_assoc, List.nil_append,
              List.dropLast_concat, elemsCutText_append]
          rw [hS, htext]
          show parseValue (g + 1 + 1)
            ('[' :: elemsCutText init (S_in ++ (decorateClosers suf.dropLast
              ++ ('\n' :: ']' :: rest)))) = some (.arr (x :: xt), rest)
          rw [parseValue_succ_bracket, parseElements_succ]
          obtain ⟨ch, th, hch, hchs⟩ := elemsCutText_head init
            (S_in ++ (decorateClosers suf.dropLast ++ ('\n' :: ']' :: rest)))
            c (tin ++ (decorateClosers suf.dropLast ++ ('\n' :: ']' :: rest)))
            hsplit.1 (by rw [htin]; simp) hc
          rw [hch]
          rw [skipWs_cons_not_ws ch th (startChar_not_jsonWs ch hchs)]
          show (if ch = ']' then some (.arr [], th)
            else parseElementsLoop g (ch :: th) []) =
            some (.arr (x :: xt), rest)
          rw [if_neg ((startChar_ne_closers ch hchs).1)]
          rw [← hch]
          rw [parseElementsLoop_cutText m ihm init xl S_in suf.dropLast []
            rest ('\n' :: ']' :: rest) g hsplit.1 hxl (by omega) hrw
            hall'' (by rfl) (by rfl) (by omega)]
          simp [hxs]
      | obj fs =>
        have hSV' : '{' :: (renderFields fs ++ ['}']) = S ++ suf := by
          simpa [render] using hSV
        obtain ⟨S₂, hS, hB⟩ := closer_suffix_split []
          (renderFields fs ++ ['}']) S suf '{' hSV' hall (by decide)
        simp only [List.nil_append] at hS
        have hlast : suf.getLast? = some '}' := by
          have h1 : (S₂ ++ suf).getLast? = suf.getLast? :=
            List.getLast?_append_of_ne_nil S₂ hsufne
          rw [← hB] at h1
          rw [List.getLast?_append_of_ne_nil (renderFields fs) (by simp)] at h1
          simpa using h1.symm
        have hsufd := eq_dropLast_concat suf '}' hlast
        have hE' : renderFields fs = S₂ ++ suf.dropLast := by
          have h2 : renderFields fs ++ ['}'] =
              (S₂ ++ suf.dropLast) ++ ['}'] := by
            rw [hB, hsufd]
            simp
          have h3 := congrArg List.dropLast h2
          simpa [List.dropLast_concat] using h3
        have hall'' : (suf.dropLast).all isCloser = true := by
          rw [hsufd, List.all_append, Bool.and_eq_true] at hall
          exact hall.1
        obtain ⟨g, rfl⟩ : ∃ g, fuel = g + 2 := by
          refine ⟨fuel - 2, ?_⟩
          have h4 : 3 ≤ sizeJ (Json.obj fs) := by
            have := sizeJFields_pos fs
            simp only [sizeJ]
            omega
          omega
        cases fs with
        | nil =>
          have h0 : S₂ ++ suf.dropLast = [] := by
            simpa [renderFields] using hE'.symm
          obtain ⟨hS₂0, hsuf0⟩ := List.append_eq_nil.mp h0
          have hsufval : suf = ['}'] := by rw [hsufd, hsuf0]; rfl
          rw [hS, hS₂0, hsufval]
          show parseValue (g + 1 + 1) ('{' :: '\n' :: '}' :: rest) =
            some (.obj [], rest)
          rw [parseValue_succ_brace, parseMembers_succ]
          rw [show skipWs ('\n' :: '}' :: rest) = '}' :: rest from rfl]
          show (if ('}' : Char) = '}' then some (.obj [], rest)
            else parseMembersLoop g ('\n' :: '}' :: rest) []) =
            some (.obj [], rest)
          simp
        | cons kv ft =>
          have hsafeF : SafeJsonFields (kv :: ft) = true := by
            simpa [SafeJson] using hsafe
          obtain ⟨finit, k, w, S_in, hfs, hrw, hS₂⟩ :=
            renderFields_cut_split (kv :: ft) S₂ suf.dropLast (by simp)
              hE' hall''
          have hsplit : SafeJsonFields finit = true ∧
              SafeJsonFields [(k, w)] = true := by
            rw [hfs] at hsafeF
            exact (safeJsonFields_append_iff finit [(k, w)]).mp hsafeF
          obtain ⟨hk, hw, _⟩ := (safeJsonFields_cons_iff k w []).mp hsplit.2
          have hszap := sizeJFields_append finit [(k, w)]
          have hsl : sizeJFields [(k, w)] = sizeJ w + 2 := by
            simp only [sizeJFields]
          have hfinitpos := sizeJFields_pos finit
          have hn' : 2 + sizeJFields (finit ++ [(k, w)]) ≤ m + 1 := by
            rw [← hfs]
            simpa [sizeJ] using hn
          have hfuel' : 2 + sizeJFields (finit ++ [(k, w)]) < g + 2 := by
            rw [← hfs]
            simpa [sizeJ] using hfuel
          have htext : ('{' :: S₂) ++ (decorateClosers suf ++ rest) =
              '{' :: fieldsCutText finit ('"' :: (k ++ '"' :: ':' ::
                (S_in ++ (decorateClosers suf.dropLast
                  ++ ('\n' :: '}' :: rest))))) := by
            rw [hsufd, decorateClosers_append,
              show decorateClosers ['}'] = ['\n', '}'] from rfl, hS₂]
            simp only [List.cons_append, List.append_assoc, List.nil_append,
              List.dropLast_concat, fieldsCutText_append]
          rw [hS, htext]
          show parseValue (g + 1 + 1)
            ('{' :: fieldsCutText finit ('"' :: (k ++ '"' :: ':' ::
              (S_in ++ (decorateClosers suf.dropLast
                ++ ('\n' :: '}' :: rest)))))) = some (.obj (kv :: ft), rest)
          rw [parseValue_succ_brace, parseMembers_succ]
          obtain ⟨th, hth⟩ : ∃ t, fieldsCutText finit ('"' :: (k ++ '"' ::
              ':' :: (S_in ++ (decorateClosers suf.dropLast
                ++ ('\n' :: '}' :: rest))))) = '"' :: t := by
            cases finit with
            | nil => exact ⟨_, rfl⟩
            | cons f2 ft2 =>
              obtain ⟨k2, w2⟩ := f2
              exact ⟨(k2 ++ '"' :: ':' :: render w2) ++
                ',' :: fieldsCutText ft2 ('"' :: (k ++ '"' :: ':' ::
                  (S_in ++ (decorateClosers suf.dropLast
                    ++ ('\n' :: '}' :: rest))))),
                by simp [fieldsCutText, renderField]⟩
          rw [hth]
          rw [skipWs_cons_not_ws '"' th (by decide)]
          show (if ('"' : Char) = '}' then some (.obj [], th)
            else parseMembersLoop g ('"' :: th) []) =
            some (.obj (kv :: ft), rest)
          rw [if_neg (by decide)]
          rw [← hth]
          rw [parseMembersLoop_cutText m ihm finit k w S_in suf.dropLast []
            rest ('\n' :: '}' :: rest) g hsplit.1 hk hw (by omega) hrw
            hall'' (by rfl) (by rfl) (by omega)]
          simp [hfs]

end JsonModel

namespace JsonModel

theorem head?_append_of_ne_nil_ch (l₁ l₂ : List Char) (h : l₁ ≠ []) :
    (l₁ ++ l₂).head? = l₁.head? := by
  cases l₁ with
  | nil => exact absurd rfl h
  | cons a t => rfl

theorem decorateClosers_length (l : List Char) :
    (decorateClosers l).length = 2 * l.length := by
  induction l with
  | nil => rfl
  | cons c t ih =>
    simp [decorateClosers] at ih ⊢
    omega

mutual

/-- The parser-fuel measure of a value is dominated by (twice) the length
of its rendering. -/
theorem sizeJ_le_renderLen : ∀ v : Json,
    sizeJ v ≤ 2 * (render v).length + 1
  | .null => by decide
  | .bool b => by cases b <;> decide
  | .num lexeme => by
    show sizeJ (.num lexeme) ≤ 2 * lexeme.length + 1
    simp [sizeJ]
  | .str s => by
    show sizeJ (.str s) ≤ 2 * ('"' :: s ++ ['"']).length + 1
    simp [sizeJ]
  | .arr xs => by
    have ih := sizeJList_le_renderLen xs
    show 2 + sizeJList xs ≤ 2 * (('[' :: renderElems xs) ++ [']']).length + 1
    simp only [List.length_append, List.length_cons, List.length_singleton]
    omega
  | .obj fs => by
    have ih := sizeJFields_le_renderLen fs
    show 2 + sizeJFields fs ≤ 2 * (('{' :: renderFields fs) ++ ['}']).length + 1
    simp only [List.length_append, List.length_cons, List.length_singleton]
    omega

/-- List analogue of the fuel/length bound. -/
theorem sizeJList_le_renderLen : ∀ xs : List Json,
    sizeJList xs ≤ 2 * (renderElems xs).length + 3
  | [] => by decide
  | [x] => by
    have ih := sizeJ_le_renderLen x
    show sizeJ x + 1 + 1 ≤ 2 * (render x).length + 3
    omega
  | x :: y :: xs => by
    have ihx := sizeJ_le_renderLen x
    have ihr := sizeJList_le_renderLen (y :: xs)
    show sizeJ x + 1 + sizeJList (y :: xs) ≤
      2 * (render x ++ ',' :: renderElems (y :: xs)).length + 3
    simp only [List.length_append, List.length_cons] at ihr ⊢
    omega

/-- Field analogue of the fuel/length bound. -/
theorem sizeJFields_le_renderLen : ∀ fs : List (List Char × Json),
    sizeJFields fs ≤ 2 * (renderFields fs).length + 3
  | [] => by decide
  | [(k, w)] => by
    have ih := sizeJ_le_renderLen w
    show sizeJ w + 1 + sizeJFields [] ≤
      2 * ('"' :: k ++ '"' :: ':' :: render w).length + 3
    simp only [sizeJFields, List.length_append, List.length_cons]
    omega
  | (k, w) :: f :: fs => by
    have ihw := sizeJ_le_renderLen w
    have ihr := sizeJFields_le_renderLen (f :: fs)
    show sizeJ w + 1 + sizeJFields (f :: fs) ≤
      2 * (('"' :: k ++ '"' :: ':' :: render w) ++
        ',' :: renderFields (f :: fs)).length + 3
    simp only [List.length_append, List.length_cons] at ihr ⊢
    omega

end

end JsonModel

namespace JsonModel

/-- C6: when the repaired first-to-last-brace span still fails to parse
and its brace or bracket counts are unequal, the extractor appends exactly
the missing number of closing brackets and then the missing number of
closing braces, in that order (each preceded by a newline); and — in the
corrected form — for every safe object whose rendering is truncated by
removing a suffix of closing brackets followed by closing braces, with the
truncated text still ending in a closing brace, the extractor recovers a
successfully parsed value.  (The second half of the original claim, for an
arbitrary removed suffix of closing delimiters, is refuted by
`c6_counterexample_interleaved_closers`: interleaved closers such as
`}]}` cannot be reconstructed by the brackets-then-braces order.) -/
theorem c6_closer_balancing_recovery :
    (∀ cs : List Char,
      (cs.count '{' ≠ cs.count '}' ∨ cs.count '[' ≠ cs.count ']') →
      balanceClosers cs = cs ++ decorateClosers
        (List.replicate (cs.count '[' - cs.count ']') ']' ++
         List.replicate (cs.count '{' - cs.count '}') '}'))
    ∧
    (∀ (fs : List (List Char × Json)) (S : List Char) (j k : Nat),
      SafeJson (.obj fs) = true →
      render (.obj fs) = S ++ (List.replicate j ']' ++ List.replicate k '}') →
      0 < j + k → S.getLast? = some '}' →
      ∃ w, extractJSON S = .ok w) := by
  constructor
  · intro cs hne
    show (if cs.count '{' ≠ cs.count '}' ∨ cs.count '[' ≠ cs.count ']' then
        cs ++ decorateClosers
          (List.replicate (cs.count '[' - cs.count ']') ']' ++
           List.replicate (cs.count '{' - cs.count '}') '}')
      else cs) = _
    rw [if_pos hne]
  · intro fs S j k hsafe hrender hjk hlast
    have hSne : S ≠ [] := by
      rintro rfl
      simp at hlast
    have hhead : S.head? = some '{' := by
      have h1 : (S ++ (List.replicate j ']' ++
          List.replicate k '}')).head? = some '{' := by
        rw [← hrender]
        rfl
      rwa [head?_append_of_ne_nil_ch S _ hSne] at h1
    have hspan : jsonSpan S = some S := jsonSpan_of_shape S hhead hlast
    cases hparse : JSONparse S with
    | some w =>
      refine ⟨w, ?_⟩
      show (match jsonSpan S with
        | none => Except.error ExtractError.noJson
        | some jsonText =>
          match JSONparse jsonText with
          | some v => Except.ok v
          | none =>
            match JSONparse (balanceClosers (repairSeparators jsonText)) with
            | some v => Except.ok v
            | none => Except.error (ExtractError.parseFailed
                (balanceClosers (repairSeparators jsonText)))) = Except.ok w
      rw [hspan]
      show (match JSONparse S with
        | some v => Except.ok v
        | none =>
          match JSONparse (balanceClosers (repairSeparators S)) with
          | some v => Except.ok v
          | none => Except.error (ExtractError.parseFailed
              (balanceClosers (repairSeparators S)))) = Except.ok w
      rw [hparse]
    | none =>
      have hall : (List.replicate j ']' ++
          List.replicate k '}').all isCloser = true := by
        simp [isCloser, List.all_append, List.all_eq_true,
          List.mem_replicate]
      have hcO := commaOk_render (.obj fs) hsafe
      have hbO := braceOk_render (.obj fs) hsafe
      rw [hrender] at hcO hbO
      have hcS : commaOk S = true :=
        commaOk_prefix S _ hcO (by rw [hlast]; simp)
      have hbS : braceOk S = true := braceOk_prefix S _ hbO
      have hrep : repairSeparators S = S := by
        show insertMissingCommasNewline
          (insertMissingCommas (stripTrailingCommas S)) = S
        rw [stripTrailingCommas_of_commaOk S hcS]
        rw [show insertMissingCommas S = insertCommasGo false S from rfl]
        rw [insertCommasGo_of_braceOk S hbS]
        rw [show insertMissingCommasNewline S =
          insertCommasNlGo false S from rfl]
        rw [insertCommasNlGo_of_braceOk S hbS]
      have hcnt := count_render (.obj fs) hsafe
      rw [hrender] at hcnt
      have hA1 : S.count '[' = S.count ']' + j := by
        have h1 := hcnt.2
        simp [List.count_append, List.count_replicate] at h1
        omega
      have hA2 : S.count '{' = S.count '}' + k := by
        have h1 := hcnt.1
        simp [List.count_append, List.count_replicate] at h1
        omega
      have hne : S.count '{' ≠ S.count '}' ∨ S.count '[' ≠ S.count ']' := by
        omega
      have hj : S.count '[' - S.count ']' = j := by omega
      have hk2 : S.count '{' - S.count '}' = k := by omega
      have hbal : balanceClosers S = S ++ decorateClosers
          (List.replicate j ']' ++ List.replicate k '}') := by
        show (if S.count '{' ≠ S.count '}' ∨ S.count '[' ≠ S.count ']' then
            S ++ decorateClosers
              (List.replicate (S.count '[' - S.count ']') ']' ++
               List.replicate (S.count '{' - S.count '}') '}')
          else S) = _
        rw [if_pos hne, hj, hk2]
      have hlenD : (decorateClosers (List.replicate j ']' ++
          List.replicate k '}')).length = 2 * (j + k) := by
        rw [decorateClosers_length]
        simp [List.length_append, List.length_replicate]
      have hsz := sizeJ_le_renderLen (.obj fs)
      have hlenR : (render (.obj fs)).length = S.length + (j + k) := by
        rw [hrender]
        simp [List.length_append, List.length_replicate]
      have hcut := parseValue_renderCut (sizeJ (.obj fs)) (.obj fs) S
        (List.replicate j ']' ++ List.replicate k '}') []
        (3 * (S ++ decorateClosers (List.replicate j ']' ++
          List.replicate k '}')).length + 3)
        le_rfl hsafe hrender hall (by rfl)
        (by rw [List.length_append, hlenD]; omega)
      have hcut' : parseValue
          (3 * (S ++ decorateClosers (List.replicate j ']' ++
            List.replicate k '}')).length + 3)
          (S ++ decorateClosers (List.replicate j ']' ++
            List.replicate k '}')) = some (.obj fs, []) := by
        simpa using hcut
      have hfinal : JSONparse (S ++ decorateClosers
          (List.replicate j ']' ++ List.replicate k '}')) =
          some (.obj fs) := by
        show (match parseValue
            (3 * (S ++ decorateClosers (List.replicate j ']' ++
              List.replicate k '}')).length + 3)
            (S ++ decorateClosers (List.replicate j ']' ++
              List.replicate k '}')) with
          | none => none
          | some (v, rest) =>
            if skipWs rest = [] then some v else none) = some (.obj fs)
        rw [hcut']
        rfl
      refine ⟨.obj fs, ?_⟩
      show (match jsonSpan S with
        | none => Except.error ExtractError.noJson
        | some jsonText =>
          match JSONparse jsonText with
          | some v => Except.ok v
          | none =>
            match JSONparse (balanceClosers (repairSeparators jsonText)) with
            | some v => Except.ok v
            | none => Except.error (ExtractError.parseFailed
                (balanceClosers (repairSeparators jsonText)))) =
        Except.ok (.obj fs)
      rw [hspan]
      show (match JSONparse S with
        | some v => Except.ok v
        | none =>
          match JSONparse (balanceClosers (repairSeparators S)) with
          | some v => Except.ok v
          | none => Except.error (ExtractError.parseFailed
              (balanceClosers (repairSeparators S)))) = Except.ok (.obj fs)
      rw [hparse]
      show (match JSONparse (balanceClosers (repairSeparators S)) with
        | some v => Except.ok v
        | none => Except.error (ExtractError.parseFailed
            (balanceClosers (repairSeparators S)))) = Except.ok (.obj fs)
      rw [hrep, hbal, hfinal]

end JsonModel

namespace JsonModel

theorem c6_closer_balancing_recovery_witness :
    (((['{'] : List Char).count '{' ≠ (['{'] : List Char).count '}' ∨
      (['{'] : List Char).count '[' ≠ (['{'] : List Char).count ']') ∧
     balanceClosers ['{'] = ['{'] ++ decorateClosers
       (List.replicate ((['{'] : List Char).count '[' -
          (['{'] : List Char).count ']') ']' ++
        List.replicate ((['{'] : List Char).count '{' -
          (['{'] : List Char).count '}') '}')) ∧
    (SafeJson (.obj [(['a'],
        Json.arr [Json.obj [(['b'], Json.num ['1'])]])]) = true ∧
     render (.obj [(['a'], Json.arr [Json.obj [(['b'], Json.num ['1'])]])]) =
       "\x7b\"a\":[\x7b\"b\":1\x7d".toList ++
         (List.replicate 1 ']' ++ List.replicate 1 '}') ∧
     ("\x7b\"a\":[\x7b\"b\":1\x7d".toList).getLast? = some '}' ∧
     ∃ w, extractJSON ("\x7b\"a\":[\x7b\"b\":1\x7d".toList) = .ok w) :=
  ⟨⟨by decide, c6_closer_balancing_recovery.1 ['{'] (by decide)⟩,
   by decide, by decide,
   by decide,
   c6_closer_balancing_recovery.2
     [(['a'], Json.arr [Json.obj [(['b'], Json.num ['1'])]])]
     ("\x7b\"a\":[\x7b\"b\":1\x7d".toList) 1 1 (by decide) (by decide)
     (by decide) (by decide)⟩

end JsonModel
